import Mathlib

/-!
Verification of the message codec of `aiocqhttp` (`aiocqhttp/message.py`):
the escape/unescape transform, the `MessageSegment` and `Message` model,
the CQ-code scanner of `Message._split_iter`, composition, `append`,
`reduce` and `extract_plain_text`.  Pure code is embedded as Lean
functions over `List Char` / `String`; raised Python exceptions are
modelled as `Except` errors; the object aliasing of `Message.__add__`
is modelled with an explicit store of segment objects.
-/

set_option maxHeartbeats 1000000

namespace Aiocq

/-- Character class `[a-zA-Z0-9-_.]` used by the scanner regex of
`Message._split_iter` for the CQ code type and the parameter keys. -/
def identChar (c : Char) : Bool :=
  c.isAlpha || c.isDigit || c == '-' || c == '_' || c == '.'

/-- ASCII whitespace as stripped by `str.lstrip()` in the parameter
splitting of `Message._split_iter`. -/
def pyWs (c : Char) : Bool :=
  c == ' ' || c == '\t' || c == '\n' || c == '\r' || c == '\x0b' || c == '\x0c'

/-- Left-to-right non-overlapping replacement of every occurrence of the
pattern, the behaviour of Python `str.replace` for a nonempty pattern. -/
def replaceAll (pat rep : List Char) : List Char → List Char
  | [] => []
  | c :: cs =>
    if pat ≠ [] ∧ pat.isPrefixOf (c :: cs) then
      rep ++ replaceAll pat rep (List.drop pat.length (c :: cs))
    else
      c :: replaceAll pat rep cs
termination_by cs => cs.length
decreasing_by
  · rename_i h
    have hp : 0 < pat.length := List.length_pos.mpr h.1
    simp only [List.length_drop, List.length_cons]
    omega
  · simp

/-- `escape` from `message.py`: replace `&`, `[`, `]` and, when asked,
`,` by their escape sequences, in this order, on the character list. -/
def escapeL (escape_comma : Bool) (cs : List Char) : List Char :=
  let s1 := replaceAll ['&'] ("&amp;".toList) cs
  let s2 := replaceAll ['['] ("&#91;".toList) s1
  let s3 := replaceAll [']'] ("&#93;".toList) s2
  if escape_comma then replaceAll [','] ("&#44;".toList) s3 else s3

/-- `escape(s, escape_comma=...)` from `message.py`. -/
def escape (s : String) (escape_comma : Bool) : String :=
  ⟨escapeL escape_comma s.data⟩

/-- `unescape` from `message.py`: undo the four escape sequences in the
reverse order. -/
def unescapeL (cs : List Char) : List Char :=
  replaceAll ("&amp;".toList) ['&']
    (replaceAll ("&#93;".toList) [']']
      (replaceAll ("&#91;".toList) ['[']
        (replaceAll ("&#44;".toList) [','] cs)))

/-- `unescape(s)` from `message.py`. -/
def unescape (s : String) : String := ⟨unescapeL s.data⟩

/-- A `MessageSegment` object: the `type` tag and, when present, the
`data` mapping, an association list in insertion order like a Python
dict.  `data` is `none` when the segment was built from a raw mapping
that had a truthy `type` entry but no `data` key at all. -/
structure MessageSegment where
  type : String
  data : Option (List (String × String))
deriving DecidableEq, Repr

/-- Lookup in a Python dict modelled as an association list. -/
def dictGet (d : List (String × String)) (k : String) : Option String :=
  (d.find? (fun kv => kv.1 == k)).map (fun kv => kv.2)

/-- Assignment `d[k] = v` in a Python dict: an existing key keeps its
insertion position and gets the new value, a new key is appended. -/
def dictSet (d : List (String × String)) (k : String) (v : String) :
    List (String × String) :=
  match d with
  | [] => [(k, v)]
  | (k0, v0) :: rest =>
    if k0 == k then (k0, v) :: rest else (k0, v0) :: dictSet rest k v

/-- A raw mapping passed to `MessageSegment.__init__`: the optional
`type` entry and the optional `data` entry. -/
structure RawDict where
  type : Option String
  data : Option (List (String × String))
deriving DecidableEq, Repr

/-- The explicit-arguments path of `MessageSegment.__init__`
(`elif type: self['type'] = type; self['data'] = data or {}`), reached
when no usable mapping was given. -/
def msgSegExplicit (ty : Option String) (dt : Option (List (String × String))) :
    Except Unit MessageSegment :=
  match ty with
  | some t => if t ≠ "" then .ok ⟨t, some (dt.getD [])⟩ else .error ()
  | none => .error ()

/-- `MessageSegment.__init__(d, type=ty, data=dt)`: a mapping with a
truthy `type` entry is copied as is (so a missing `data` key stays
missing), otherwise the explicit path runs, otherwise `ValueError`. -/
def msgSegInit (d : Option RawDict) (ty : Option String)
    (dt : Option (List (String × String))) : Except Unit MessageSegment :=
  match d with
  | some dd =>
    match dd.type with
    | some t => if t ≠ "" then .ok ⟨t, dd.data⟩ else msgSegExplicit ty dt
    | none => msgSegExplicit ty dt
  | none => msgSegExplicit ty dt

/-- Reading the `data` attribute of a segment
(`__getattr__ -> __getitem__`): an `AttributeError` when the `data` key
is missing. -/
def MessageSegment.getData (s : MessageSegment) :
    Except Unit (List (String × String)) :=
  match s.data with
  | some d => .ok d
  | none => .error ()

/-- The `MessageSegment.text` builder. -/
def MessageSegment.text (t : String) : MessageSegment :=
  ⟨"text", some [("text", t)]⟩

/-- `MessageSegment.__str__`: a text segment renders its payload escaped
without comma escaping; any other segment renders
`[CQ:type,k1=v1,...]` with each value escaped with comma escaping.
Reading a missing `data` raises. -/
def msgSegStr (s : MessageSegment) : Except Unit String :=
  if s.type = "text" then
    match s.data with
    | some d => .ok ⟨escapeL false ((dictGet d "text").getD "").data⟩
    | none => .error ()
  else
    match s.data with
    | some d =>
      let params := String.intercalate ","
        (d.map (fun kv => kv.1 ++ "=" ++ String.mk (escapeL true kv.2.data)))
      let params := if params ≠ "" then "," ++ params else params
      .ok ("[CQ:" ++ s.type ++ params ++ "]")
    | none => .error ()

theorem dropWhile_len_le (p : Char → Bool) (l : List Char) :
    (l.dropWhile p).length ≤ l.length := by
  induction l with
  | nil => simp [List.dropWhile]
  | cons c cs ih =>
    rw [List.dropWhile]
    by_cases h : p c
    · simp [h]; omega
    · simp [h]

/-- The params part of the scanner regex of `Message._split_iter`:
`(?:,[a-zA-Z0-9-_.]+=?[^,\\]]*)*` followed by `,?\\]`.  Each group spans
from its comma to just before the next comma or close bracket, and no
backtracking alternative of the greedy engine can move a group boundary
elsewhere, so this deterministic loop matches exactly when the regex
does.  On success it returns the captured params text and the rest of
the input after the close bracket. -/
def matchParamsLoop (cs : List Char) (acc : List Char) :
    Option (List Char × List Char) :=
  match cs with
  | [] => none
  | c :: rest =>
    if c = ']' then some (acc, rest)
    else if c = ',' then
      if rest.head? = some ']' then some (acc, rest.tail)
      else
        let key := rest.takeWhile identChar
        if key = [] then none
        else
          let r2 := rest.dropWhile identChar
          let val := r2.takeWhile (fun x => !(x == ',' || x == ']'))
          let r3 := r2.dropWhile (fun x => !(x == ',' || x == ']'))
          matchParamsLoop r3 (acc ++ [','] ++ key ++ val)
    else none
termination_by cs.length
decreasing_by
  refine Nat.lt_of_le_of_lt
    (Nat.le_trans (dropWhile_len_le _ _) (dropWhile_len_le _ _)) ?_
  simp

theorem matchParamsLoop_length :
    ∀ cs acc, ∀ ps after, matchParamsLoop cs acc = some (ps, after) →
      after.length < cs.length := by
  intro cs acc
  induction cs, acc using matchParamsLoop.induct with
  | case1 acc =>
    intro ps after h
    simp [matchParamsLoop] at h
  | case2 acc rest =>
    intro ps after h
    rw [matchParamsLoop] at h
    simp at h
    simp [h.2]
  | case3 acc rest hh hne =>
    intro ps after h
    rw [matchParamsLoop] at h
    simp [hh] at h
    have h2 : rest.tail.length ≤ rest.length := by
      cases rest <;> simp
    rw [← h.2]
    simp only [List.length_cons]
    omega
  | case4 acc rest hh key hkey hne =>
    intro ps after h
    rw [matchParamsLoop] at h
    simp only [if_neg hh] at h
    rw [if_pos hkey] at h
    simp at h
  | case5 acc rest hh key hkey r2 val r3 hne ih =>
    intro ps after h
    rw [matchParamsLoop] at h
    simp only [if_neg hh] at h
    rw [if_neg hkey] at h
    simp only [reduceCtorEq, reduceIte,
      if_neg (by decide : ¬(',' : Char) = ']'), if_pos rfl] at h
    have := ih _ _ h
    have h2 : r3.length ≤ rest.length :=
      Nat.le_trans (dropWhile_len_le _ _) (dropWhile_len_le _ _)
    simp only [List.length_cons]
    omega
  | case6 acc c rest hc hc2 =>
    intro ps after h
    rw [matchParamsLoop] at h
    simp [hc, hc2] at h

/-- Attempt the token regex
`\[CQ:(?P<type>[a-zA-Z0-9-_.]+)(?P<params>(?:,[a-zA-Z0-9-_.]+=?[^,\]]*)*),?\]`
at the start of the list.  On success return the type name, the captured
params text and the rest of the input after the match. -/
def matchAt (cs : List Char) : Option (String × List Char × List Char) :=
  if ("[CQ:".toList).isPrefixOf cs then
    let r := cs.drop 4
    let ty := r.takeWhile identChar
    if ty = [] then none
    else
      match matchParamsLoop (r.dropWhile identChar) [] with
      | some (ps, after) => some (⟨ty⟩, ps, after)
      | none => none
  else none

theorem matchAt_length {cs : List Char} {ty ps after}
    (h : matchAt cs = some (ty, ps, after)) : after.length < cs.length := by
  rw [matchAt] at h
  split at h
  · rename_i hpre
    simp only [] at h
    split at h
    · exact absurd h (by simp)
    · split at h
      · rename_i heq
        simp at h
        have hl := matchParamsLoop_length _ _ _ _ heq
        have h2 : ((cs.drop 4).dropWhile identChar).length ≤ (cs.drop 4).length :=
          dropWhile_len_le _ _
        have h3 : (cs.drop 4).length ≤ cs.length := by
          simp [List.length_drop]
        rw [h.2.2] at hl
        omega
      · exact absurd h (by simp)
  · exact absurd h (by simp)

/-- The `finditer` scan of `iter_function_name_and_extra`: walk the
input, at each position try the token regex; on a match emit the pending
text gap and the token (with the captured params stripped of leading
commas, as `lstrip(',')` does), otherwise advance one character.  The
trailing text gap is always emitted, like the final `yield` does. -/
def scanAux (cs : List Char) (gap : List Char) : List (String × List Char) :=
  match h : matchAt cs with
  | some (ty, ps, after) =>
    ("text", gap) :: (ty, ps.dropWhile (fun c => c == ',')) :: scanAux after []
  | none =>
    match cs with
    | [] => [("text", gap)]
    | c :: rest => scanAux rest (gap ++ [c])
termination_by cs.length
decreasing_by
  · exact matchAt_length h
  · simp

/-- The pairs yielded by `iter_function_name_and_extra` on an input. -/
def iterFNE (cs : List Char) : List (String × List Char) := scanAux cs []

/-- Python `str.split(',')`: split at every comma, keeping empty pieces
(so the empty string gives one empty piece). -/
def splitOnComma : List Char → List (List Char)
  | [] => [[]]
  | c :: rest =>
    if c = ',' then [] :: splitOnComma rest
    else
      match splitOnComma rest with
      | h :: t => (c :: h) :: t
      | [] => [[c]]

/-- Python `str.split('=', maxsplit=1)` viewed as an option: `some`
with the parts around the first `=` when one exists, `none` otherwise
(the `none` case is where the `{k: v for k, v in ...}` unpacking of
`_split_iter` raises `ValueError`). -/
def splitEq1 : List Char → Option (List Char × List Char)
  | [] => none
  | c :: rest =>
    if c = '=' then some ([], rest)
    else (splitEq1 rest).map (fun p => (c :: p.1, p.2))

/-- The params dict built by `_split_iter` for a matched token: split the
captured text on commas, left-strip whitespace, drop empty pieces, split
each piece at its first `=`.  A piece without `=` makes the dict
comprehension unpacking raise.  Note that the value is stored verbatim:
`unescape` is not applied. -/
def buildParams (extra : List Char) : Except Unit (List (String × String)) :=
  let pieces := ((splitOnComma extra).map
    (fun p => p.dropWhile pyWs)).filter (fun p => p ≠ [])
  pieces.foldlM (fun d p =>
    match splitEq1 p with
    | some (k, v) => .ok (dictSet d ⟨k⟩ ⟨v⟩)
    | none => .error ()) []

/-- One yielded name/extra pair of `_split_iter` turned into segments:
an entry named `text` (a gap, or a matched token whose type is literally
`text`) becomes a text segment when nonempty; any other entry becomes a
segment with the params dict built from its captured text. -/
def splitStep (acc : List MessageSegment) (fe : String × List Char) :
    Except Unit (List MessageSegment) :=
  if fe.1 = "text" then
    if fe.2 ≠ [] then
      .ok (acc ++ [⟨"text", some [("text", ⟨fe.2⟩)]⟩])
    else .ok acc
  else
    (buildParams fe.2).map (fun d => acc ++ [(⟨fe.1, some d⟩ : MessageSegment)])

/-- `Message._split_iter`: the segments yielded for an input string. -/
def splitIterSegs (cs : List Char) : Except Unit (List MessageSegment) :=
  (iterFNE cs).foldlM splitStep []

/-- `Message.append` on a `MessageSegment` argument: when the list ends
with a text segment and the new segment is text, the last segment's text
payload gets the new payload appended (in place in the Python original)
and no element is added; otherwise the segment is appended.  The reads
`self[-1].data['text']` and `obj.data['text']` happen in this order and
each can raise, before anything is written. -/
def msgAppend (msg : List MessageSegment) (s : MessageSegment) :
    Except Unit (List MessageSegment) :=
  match msg.getLast? with
  | some last =>
    if last.type = "text" ∧ s.type = "text" then
      match last.data with
      | some ld =>
        match dictGet ld "text" with
        | some lt =>
          match s.data with
          | some sd =>
            match dictGet sd "text" with
            | some st =>
              .ok (msg.dropLast ++
                [⟨last.type, some (dictSet ld "text" (lt ++ st))⟩])
            | none => .error ()
          | none => .error ()
        | none => .error ()
      | none => .error ()
    else .ok (msg ++ [s])
  | none => .ok (msg ++ [s])

/-- `Message.extend` on a list of segments: append each in order. -/
def msgExtend (msg : List MessageSegment) (segs : List MessageSegment) :
    Except Unit (List MessageSegment) :=
  segs.foldlM msgAppend msg

/-- `Message(s)` on a string: split it and append each yielded segment
to the empty message.  Any exception on the way surfaces as
`ValueError`. -/
def parseMessage (s : String) : Except Unit (List MessageSegment) :=
  splitIterSegs s.data >>= fun segs => msgExtend [] segs

/-- `Message.__str__`: concatenation of the rendered segments. -/
def messageStr (msg : List MessageSegment) : Except Unit String :=
  (msg.mapM msgSegStr).map (fun l => String.join l)

/-- The `while` loop of `Message.reduce`: `done` is `self[0:idx]` and
`rest` is `self[idx:]`.  When the element before the cursor and the
element at the cursor are both text the former's payload gets the
latter's appended and the latter is deleted, else the cursor moves. -/
def reduceGo (done : List MessageSegment) :
    List MessageSegment → Except Unit (List MessageSegment)
  | [] => .ok done
  | s :: rest =>
    match done.getLast? with
    | some last =>
      if last.type = "text" ∧ s.type = "text" then
        match last.data with
        | some ld =>
          match dictGet ld "text" with
          | some lt =>
            match s.data with
            | some sd =>
              match dictGet sd "text" with
              | some st =>
                reduceGo (done.dropLast ++
                  [⟨last.type, some (dictSet ld "text" (lt ++ st))⟩]) rest
              | none => .error ()
            | none => .error ()
          | none => .error ()
        | none => .error ()
      else reduceGo (done ++ [s]) rest
    | none => reduceGo (done ++ [s]) rest

/-- `Message.reduce()`. -/
def msgReduce (msg : List MessageSegment) : Except Unit (List MessageSegment) :=
  reduceGo [] msg

/-- `Message.extract_plain_text(reduce=red)`: optionally reduce, then
concatenate `' ' + payload` for every text segment and drop the leading
character of a nonempty result.  Reading `seg.data['text']` raises when
the key or the `data` mapping is missing. -/
def extractPlainText (red : Bool) (msg : List MessageSegment) :
    Except Unit String :=
  (if red then msgReduce msg else .ok msg) >>= fun m =>
  (m.foldlM (fun acc s =>
    if s.type = "text" then
      match s.data with
      | some d =>
        match dictGet d "text" with
        | some t => .ok (acc ++ " " ++ t)
        | none => .error ()
      | none => .error ()
    else .ok acc) "") >>= fun r =>
  .ok (if r ≠ "" then (⟨r.data.tail⟩ : String) else r)

/-- No two adjacent elements are both text segments. -/
def noAdjTexts : List MessageSegment → Bool
  | [] => true
  | [_] => true
  | a :: b :: rest =>
    !(a.type == "text" && b.type == "text") && noAdjTexts (b :: rest)

/-! ### Store model

Python `MessageSegment` objects are mutable and shared by reference: a
`Message` is a list of references, and `Message(self)` copies the list
while sharing the segment objects.  The store is the list of all
allocated segment objects, a message is a list of indices into it, and
the in-place payload mutation of `append` is an update of the store.
Errors carry the state at the moment the exception is raised. -/

/-- The heap of allocated segment objects; an id is an index. -/
abbrev Store := List MessageSegment

/-- `Message.append` on a `MessageSegment` object reference: the merge
path reads `self[-1].data['text']` then `obj.data['text']` (each read
can raise, before anything is written) and then updates the last
segment object in place; otherwise the reference is appended to the
list.  The error value carries the (unchanged) state at the raise. -/
def msgAppendSegS (st : Store) (msg : List Nat) (i : Nat) :
    Except (Store × List Nat) (Store × List Nat) :=
  match msg.getLast? with
  | some j =>
    match st[j]?, st[i]? with
    | some last, some obj =>
      if last.type = "text" ∧ obj.type = "text" then
        match last.data with
        | some ld =>
          match dictGet ld "text" with
          | some lt =>
            match obj.data with
            | some od =>
              match dictGet od "text" with
              | some ot =>
                .ok (st.set j ⟨last.type, some (dictSet ld "text" (lt ++ ot))⟩,
                  msg)
              | none => .error (st, msg)
            | none => .error (st, msg)
          | none => .error (st, msg)
        | none => .error (st, msg)
      else .ok (st, msg ++ [i])
    | _, _ => .error (st, msg)
  | none => .ok (st, msg ++ [i])

/-- An argument passed to `Message.append`: an existing segment object,
a raw mapping, or anything else (neither dict nor segment). -/
inductive PyArg where
  | seg (i : Nat)
  | dict (d : RawDict)
  | other
deriving DecidableEq

/-- `Message.append(obj)` in the store model: a segment reference goes
to the merge-or-append path; a raw mapping is first coerced by
`MessageSegment(obj)` (allocating a fresh object on success, raising
before any allocation on failure) and then appended; any other value
makes the coercion raise. -/
def msgAppendArgS (st : Store) (msg : List Nat) (a : PyArg) :
    Except (Store × List Nat) (Store × List Nat) :=
  match a with
  | .seg i => msgAppendSegS st msg i
  | .dict d =>
    match msgSegInit (some d) none none with
    | .ok s => msgAppendSegS (st ++ [s]) msg st.length
    | .error _ => .error (st, msg)
  | .other => .error (st, msg)

/-- Appending a list of existing segment references one by one, as
`Message.__init__` does through `extend` when given a `Message`. -/
def msgExtendIdsS : Store × List Nat → List Nat →
    Except (Store × List Nat) (Store × List Nat)
  | p, [] => .ok p
  | p, i :: rest =>
    (msgAppendSegS p.1 p.2 i) >>= fun p2 => msgExtendIdsS p2 rest

/-- Allocating freshly parsed segments and appending each, as
`Message.extend` does with the output of `_split_iter`. -/
def allocAppendS : Store × List Nat → List MessageSegment →
    Except (Store × List Nat) (Store × List Nat)
  | p, [] => .ok p
  | p, s :: rest =>
    (msgAppendSegS (p.1 ++ [s]) p.2 p.1.length) >>= fun p2 =>
      allocAppendS p2 rest

/-- `Message.__add__` with a string operand: `result = Message(self)`
copies the reference list (sharing the segment objects), then
`result.extend(other)` parses the string and appends the new segments.
Returns the final store and the reference list of the result. -/
def msgAddStrS (st : Store) (mids : List Nat) (other : String) :
    Except (Store × List Nat) (Store × List Nat) :=
  (msgExtendIdsS (st, []) mids) >>= fun r =>
    match splitIterSegs other.data with
    | .ok segs => allocAppendS r segs
    | .error _ => .error r


theorem scanAux_nil (gap : List Char) : scanAux [] gap = [("text", gap)] := by
  rw [scanAux]
  have h : matchAt [] = none := by rfl
  split
  · rename_i heq
    rw [h] at heq
    cases heq
  · rfl

theorem scanAux_some {cs : List Char} {ty ps after} (gap : List Char)
    (h : matchAt cs = some (ty, ps, after)) :
    scanAux cs gap =
      ("text", gap) :: (ty, ps.dropWhile (fun c => c == ',')) :: scanAux after [] := by
  rw [scanAux]
  split
  · rename_i t p a heq
    rw [h] at heq
    cases heq
    rfl
  · rename_i heq
    rw [h] at heq
    cases heq

theorem scanAux_none_cons {c : Char} {rest : List Char} (gap : List Char)
    (h : matchAt (c :: rest) = none) :
    scanAux (c :: rest) gap = scanAux rest (gap ++ [c]) := by
  rw [scanAux]
  split
  · rename_i t p a heq
    rw [h] at heq
    cases heq
  · rfl


/-- Fuel-indexed structural twin of `replaceAll`, used only to let the
kernel evaluate concrete instances; `replaceAllF_eq` ties it to the
definition. -/
def replaceAllF : Nat → List Char → List Char → List Char → List Char
  | 0, _, _, s => s
  | _, _, _, [] => []
  | fuel+1, pat, rep, c :: cs =>
    if pat ≠ [] ∧ pat.isPrefixOf (c :: cs) then
      rep ++ replaceAllF fuel pat rep (List.drop pat.length (c :: cs))
    else
      c :: replaceAllF fuel pat rep cs

theorem replaceAllF_eq :
    ∀ pat rep s, ∀ fuel, s.length < fuel →
      replaceAllF fuel pat rep s = replaceAll pat rep s := by
  intro pat rep s
  induction s using replaceAll.induct pat rep with
  | case1 =>
    intro fuel hf
    cases fuel with
    | zero => omega
    | succ f => simp only [replaceAllF]; rw [replaceAll]
  | case2 c cs hp ih =>
    intro fuel hf
    cases fuel with
    | zero => omega
    | succ f =>
      simp only [replaceAllF]
      rw [replaceAll]
      rw [if_pos hp, if_pos hp]
      have hlen : (List.drop pat.length (c :: cs)).length < f := by
        have hp1 : 0 < pat.length := List.length_pos.mpr hp.1
        simp only [List.length_drop, List.length_cons] at *
        omega
      rw [ih _ hlen]
  | case3 c cs hp ih =>
    intro fuel hf
    cases fuel with
    | zero => omega
    | succ f =>
      simp only [replaceAllF]
      rw [replaceAll]
      rw [if_neg hp, if_neg hp]
      have hlen : cs.length < f := by
        simp only [List.length_cons] at hf
        omega
      rw [ih _ hlen]


/-- Fuel-indexed structural twin of `matchParamsLoop` for kernel
evaluation of concrete instances. -/
def matchParamsLoopF : Nat → List Char → List Char → Option (List Char × List Char)
  | 0, _, _ => none
  | fuel+1, cs, acc =>
    match cs with
    | [] => none
    | c :: rest =>
      if c = ']' then some (acc, rest)
      else if c = ',' then
        if rest.head? = some ']' then some (acc, rest.tail)
        else
          let key := rest.takeWhile identChar
          if key = [] then none
          else
            let r2 := rest.dropWhile identChar
            let val := r2.takeWhile (fun x => !(x == ',' || x == ']'))
            let r3 := r2.dropWhile (fun x => !(x == ',' || x == ']'))
            matchParamsLoopF fuel r3 (acc ++ [','] ++ key ++ val)
      else none

theorem matchParamsLoopF_eq :
    ∀ cs acc, ∀ fuel, cs.length < fuel →
      matchParamsLoopF fuel cs acc = matchParamsLoop cs acc := by
  intro cs acc
  induction cs, acc using matchParamsLoop.induct with
  | case1 acc =>
    intro fuel hf
    cases fuel with
    | zero => omega
    | succ f => simp [matchParamsLoopF, matchParamsLoop]
  | case2 acc rest =>
    intro fuel hf
    cases fuel with
    | zero => omega
    | succ f =>
      simp only [matchParamsLoopF]
      rw [matchParamsLoop]
      simp
  | case3 acc rest hh hne =>
    intro fuel hf
    cases fuel with
    | zero => omega
    | succ f =>
      simp only [matchParamsLoopF]
      rw [matchParamsLoop]
      simp [hh]
  | case4 acc rest hh key hkey hne =>
    intro fuel hf
    cases fuel with
    | zero => omega
    | succ f =>
      simp only [matchParamsLoopF]
      rw [matchParamsLoop]
      have hk : List.takeWhile identChar rest = [] := hkey
      simp [hh, hk]
  | case5 acc rest hh key hkey r2 val r3 hne ih =>
    intro fuel hf
    cases fuel with
    | zero => omega
    | succ f =>
      simp only [matchParamsLoopF]
      rw [matchParamsLoop]
      have hk : ¬List.takeWhile identChar rest = [] := hkey
      have hr3 : r3.length < f := by
        have h1 : r3.length ≤ rest.length :=
          Nat.le_trans (dropWhile_len_le _ _) (dropWhile_len_le _ _)
        simp only [List.length_cons] at hf
        omega
      simp only [if_true, reduceIte, if_neg hh, if_neg hk]
      exact ih _ hr3
  | case6 acc c rest hc hc2 =>
    intro fuel hf
    cases fuel with
    | zero => omega
    | succ f =>
      simp only [matchParamsLoopF]
      rw [matchParamsLoop]
      simp [hc, hc2]

/-- Fuel-indexed twin of `matchAt`. -/
def matchAtF (fuel : Nat) (cs : List Char) :
    Option (String × List Char × List Char) :=
  if ("[CQ:".toList).isPrefixOf cs then
    let r := cs.drop 4
    let ty := r.takeWhile identChar
    if ty = [] then none
    else
      match matchParamsLoopF fuel (r.dropWhile identChar) [] with
      | some (ps, after) => some (⟨ty⟩, ps, after)
      | none => none
  else none

theorem matchAtF_eq (cs : List Char) (fuel : Nat) (hf : cs.length < fuel) :
    matchAtF fuel cs = matchAt cs := by
  rw [matchAtF, matchAt]
  have hlen : ((cs.drop 4).dropWhile identChar).length < fuel := by
    have h1 : ((cs.drop 4).dropWhile identChar).length ≤ (cs.drop 4).length :=
      dropWhile_len_le _ _
    simp only [List.length_drop] at *
    omega
  simp only [matchParamsLoopF_eq _ _ _ hlen]

/-- Fuel-indexed structural twin of `scanAux`. -/
def scanAuxF : Nat → List Char → List Char → List (String × List Char)
  | 0, _, gap => [("text", gap)]
  | fuel+1, cs, gap =>
    match matchAtF (fuel+1) cs with
    | some (ty, ps, after) =>
      ("text", gap) :: (ty, ps.dropWhile (fun c => c == ',')) :: scanAuxF fuel after []
    | none =>
      match cs with
      | [] => [("text", gap)]
      | c :: rest => scanAuxF fuel rest (gap ++ [c])

theorem scanAuxF_eq :
    ∀ fuel cs gap, cs.length < fuel → scanAuxF fuel cs gap = scanAux cs gap := by
  intro fuel
  induction fuel with
  | zero => intro cs gap h; omega
  | succ f ih =>
    intro cs gap h
    simp only [scanAuxF]
    rw [matchAtF_eq _ _ h]
    cases hm : matchAt cs with
    | some val =>
      obtain ⟨ty, ps, after⟩ := val
      dsimp only
      rw [scanAux_some gap hm]
      have ha : after.length < f := by
        have := matchAt_length hm
        omega
      rw [ih _ _ ha]
    | none =>
      dsimp only
      cases cs with
      | nil => rw [scanAux_nil]
      | cons c rest =>
        rw [scanAux_none_cons gap hm]
        have h2 : rest.length < f := by
          simp only [List.length_cons] at h
          omega
        dsimp only
        rw [ih _ _ h2]


/-- Kernel-evaluable form of the split pipeline. -/
def splitIterSegsF (cs : List Char) : Except Unit (List MessageSegment) :=
  (scanAuxF (cs.length + 1) cs []).foldlM splitStep []

theorem splitIterSegsF_eq (cs : List Char) : splitIterSegsF cs = splitIterSegs cs := by
  rw [splitIterSegsF, splitIterSegs, iterFNE, scanAuxF_eq _ _ _ (by omega)]

/-- Kernel-evaluable form of `parseMessage`. -/
def parseMessageF (s : String) : Except Unit (List MessageSegment) :=
  splitIterSegsF s.data >>= fun segs => msgExtend [] segs

theorem parseMessageF_eq (s : String) : parseMessageF s = parseMessage s := by
  rw [parseMessageF, parseMessage, splitIterSegsF_eq]

/-- Kernel-evaluable form of `escapeL`. -/
def escapeLF (escape_comma : Bool) (cs : List Char) : List Char :=
  let s1 := replaceAllF (cs.length + 1) ['&'] ("&amp;".toList) cs
  let s2 := replaceAllF (s1.length + 1) ['['] ("&#91;".toList) s1
  let s3 := replaceAllF (s2.length + 1) [']'] ("&#93;".toList) s2
  if escape_comma then replaceAllF (s3.length + 1) [','] ("&#44;".toList) s3 else s3

theorem escapeLF_eq (b : Bool) (cs : List Char) : escapeLF b cs = escapeL b cs := by
  rw [escapeLF, escapeL]
  simp only [replaceAllF_eq _ _ _ _ (Nat.lt_succ_self _)]

/-- Kernel-evaluable form of `unescapeL`. -/
def unescapeLF (cs : List Char) : List Char :=
  let s1 := replaceAllF (cs.length + 1) ("&#44;".toList) [','] cs
  let s2 := replaceAllF (s1.length + 1) ("&#91;".toList) ['['] s1
  let s3 := replaceAllF (s2.length + 1) ("&#93;".toList) [']'] s2
  replaceAllF (s3.length + 1) ("&amp;".toList) ['&'] s3

theorem unescapeLF_eq (cs : List Char) : unescapeLF cs = unescapeL cs := by
  rw [unescapeLF, unescapeL]
  simp only [replaceAllF_eq _ _ _ _ (Nat.lt_succ_self _)]

theorem msgAppendSegS_error :
    ∀ st msg i p, msgAppendSegS st msg i = .error p → p = (st, msg) := by
  intro st msg i p h
  rw [msgAppendSegS] at h
  repeat' split at h
  all_goals simp_all

/-- C7: Message.append validates before it mutates: whenever the call
raises, the message's element list is unchanged and every segment
object that existed before the call is unchanged in the store (at most
a fresh, unreferenced object may have been allocated by a successful
coercion). -/
theorem C7_append_atomic (st : Store) (msg : List Nat) (a : PyArg)
    (st2 : Store) (msg2 : List Nat)
    (h : msgAppendArgS st msg a = .error (st2, msg2)) :
    msg2 = msg ∧ ∀ k, k < st.length → st2[k]? = st[k]? := by
  match a with
  | .seg i =>
    rw [msgAppendArgS] at h
    have := msgAppendSegS_error _ _ _ _ h
    cases this
    exact ⟨rfl, fun k _ => rfl⟩
  | .dict d =>
    rw [msgAppendArgS] at h
    split at h
    · rename_i s hs
      have := msgAppendSegS_error _ _ _ _ h
      cases this
      refine ⟨rfl, fun k hk => ?_⟩
      rw [List.getElem?_append]
      rw [if_pos hk]
    · simp at h
      cases h.1
      cases h.2
      exact ⟨rfl, fun k _ => rfl⟩
  | .other =>
    rw [msgAppendArgS] at h
    simp at h
    cases h.1
    cases h.2
    exact ⟨rfl, fun k _ => rfl⟩

theorem C7_append_atomic_witness :
    msgAppendArgS [MessageSegment.text "a"] [0] .other =
      .error ([MessageSegment.text "a"], [0]) ∧
    ([0] : List Nat) = [0] ∧
    ∀ k, k < ([MessageSegment.text "a"] : Store).length →
      ([MessageSegment.text "a"] : Store)[k]? =
        ([MessageSegment.text "a"] : Store)[k]? := by
  refine ⟨rfl, ?_⟩
  exact C7_append_atomic [MessageSegment.text "a"] [0] .other
    [MessageSegment.text "a"] [0] rfl

/-- C2 (code evaluated at the failing input): `Message('a') + 'b'`
mutates the left operand.  `result = Message(self)` shares the segment
object with `m`; extending the copy with the parsed `'b'` merges into
that shared object, so after the `+` the store holds `"ab"` where `m`'s
only segment (id 0) held `"a"`. -/
theorem C2_add_mutates_operand :
    msgAddStrS [MessageSegment.text "a"] [0] "b" =
      .ok ([MessageSegment.text "ab", MessageSegment.text "b"], [0]) ∧
    ([MessageSegment.text "ab", MessageSegment.text "b"] : Store)[0]? ≠
      ([MessageSegment.text "a"] : Store)[0]? := by
  constructor
  · rw [msgAddStrS]
    rw [show splitIterSegs "b".data = .ok [MessageSegment.text "b"] from by
      rw [← splitIterSegsF_eq]; rfl]
    rfl
  · intro h
    simp [MessageSegment.text] at h

/-- C1 counterexample: parsing stores the raw parameter value; it does
not pass it through `unescape`, so the share-token fragment
`title=a&#44;b` parses to the value `a&#44;b`, not `a,b`. -/
theorem C1_counterexample_no_unescape :
    parseMessage "[CQ:share,title=a&#44;b]" =
      .ok [⟨"share", some [("title", "a&#44;b")]⟩] ∧
    unescape "a&#44;b" = "a,b" ∧
    parseMessage "[CQ:share,title=a&#44;b]" ≠
      .ok [⟨"share", some [("title", unescape "a&#44;b")]⟩] := by
  have h1 : parseMessage "[CQ:share,title=a&#44;b]" =
      .ok [⟨"share", some [("title", "a&#44;b")]⟩] := by
    rw [← parseMessageF_eq]; rfl
  have h2 : unescape "a&#44;b" = "a,b" := by
    rw [unescape, ← unescapeLF_eq]; rfl
  refine ⟨h1, h2, ?_⟩
  rw [h1, h2]
  intro h
  simp at h

/-- C3 counterexample: parsing is not total.  The scanner regex allows a
parameter group without `=` (`=?`), so `[CQ:face,abc]` is matched as a
token, and the key/value unpacking then raises `ValueError`; the claim
says this input parses as plain text with no error. -/
theorem C3_counterexample_not_total :
    parseMessage "[CQ:face,abc]" = .error () ∧
    parseMessage "[CQ:face,abc]" ≠
      .ok [⟨"text", some [("text", "[CQ:face,abc]")]⟩] := by
  have h1 : parseMessage "[CQ:face,abc]" = .error () := by
    rw [← parseMessageF_eq]; rfl
  exact ⟨h1, by rw [h1]; intro h; cases h⟩

/-- C10: a mapping with a non-empty `type` and no `data` key constructs
successfully into a segment with no `data` field; reading `data` raises
`AttributeError` and rendering raises; only the explicit kind/params
path defaults `data` to the empty mapping. -/
theorem C10_missing_data (t : String) (ht : t ≠ "") :
    msgSegInit (some ⟨some t, none⟩) none none = .ok ⟨t, none⟩ ∧
    MessageSegment.getData ⟨t, none⟩ = .error () ∧
    msgSegStr ⟨t, none⟩ = .error () ∧
    msgSegExplicit (some t) none = .ok ⟨t, some []⟩ := by
  refine ⟨?_, rfl, ?_, ?_⟩
  · simp [msgSegInit, ht]
  · rw [msgSegStr]
    by_cases h : (⟨t, none⟩ : MessageSegment).type = "text" <;> simp [h]
  · simp [msgSegExplicit, ht]

theorem C10_missing_data_witness :
    ("x" : String) ≠ "" ∧
    (msgSegInit (some ⟨some "x", none⟩) none none = .ok ⟨"x", none⟩ ∧
     MessageSegment.getData ⟨"x", none⟩ = .error () ∧
     msgSegStr ⟨"x", none⟩ = .error () ∧
     msgSegExplicit (some "x") none = .ok ⟨"x", some []⟩) :=
  ⟨by decide, C10_missing_data "x" (by decide)⟩


theorem noAdjTexts_concat_iff (xs : List MessageSegment) (a : MessageSegment) :
    noAdjTexts (xs ++ [a]) = true ↔
      (noAdjTexts xs = true ∧
        ∀ x, xs.getLast? = some x → ¬(x.type = "text" ∧ a.type = "text")) := by
  induction xs with
  | nil => simp [noAdjTexts]
  | cons x xs ih =>
    cases xs with
    | nil =>
      simp [noAdjTexts]
      tauto
    | cons y rest =>
      rw [List.cons_append, List.cons_append]
      rw [show noAdjTexts (x :: y :: (rest ++ [a])) =
        (!(x.type == "text" && y.type == "text") &&
          noAdjTexts (y :: (rest ++ [a]))) from rfl]
      rw [show noAdjTexts (x :: y :: rest) =
        (!(x.type == "text" && y.type == "text") && noAdjTexts (y :: rest)) from rfl]
      rw [List.getLast?_cons_cons]
      constructor
      · intro h
        have h1 := (Bool.and_eq_true _ _).mp h
        have h2 := ih.mp h1.2
        exact ⟨(Bool.and_eq_true _ _).mpr ⟨h1.1, h2.1⟩, h2.2⟩
      · intro h
        have h1 := (Bool.and_eq_true _ _).mp h.1
        exact (Bool.and_eq_true _ _).mpr ⟨h1.1, ih.mpr ⟨h1.2, h.2⟩⟩

theorem noAdjTexts_prefix :
    ∀ l1 l2 : List MessageSegment, noAdjTexts (l1 ++ l2) = true →
      noAdjTexts l1 = true := by
  intro l1 l2
  induction l1 with
  | nil => intro h; rfl
  | cons x xs ih =>
    cases xs with
    | nil => intro h; rfl
    | cons y rest =>
      intro h
      rw [List.cons_append, List.cons_append] at h
      rw [show noAdjTexts (x :: y :: (rest ++ l2)) =
        (!(x.type == "text" && y.type == "text") &&
          noAdjTexts (y :: (rest ++ l2))) from rfl] at h
      have h1 := (Bool.and_eq_true _ _).mp h
      rw [show noAdjTexts (x :: y :: rest) =
        (!(x.type == "text" && y.type == "text") && noAdjTexts (y :: rest)) from rfl]
      exact (Bool.and_eq_true _ _).mpr ⟨h1.1, ih h1.2⟩

theorem eq_dropLast_concat {l : List MessageSegment} {x : MessageSegment}
    (h : l.getLast? = some x) : l = l.dropLast ++ [x] := by
  induction l with
  | nil => cases h
  | cons a as ih =>
    cases as with
    | nil =>
      simp at h
      simp [h]
    | cons b bs =>
      rw [List.getLast?_cons_cons] at h
      have := ih h
      rw [List.dropLast_cons₂, List.cons_append, ← this]


theorem msgAppend_cases {msg : List MessageSegment} {s : MessageSegment}
    {r : List MessageSegment} (h : msgAppend msg s = .ok r) :
    (r = msg ++ [s] ∧
      ∀ last, msg.getLast? = some last →
        ¬(last.type = "text" ∧ s.type = "text")) ∨
    (∃ last ld lt st, msg.getLast? = some last ∧ last.type = "text" ∧
      s.type = "text" ∧ last.data = some ld ∧ dictGet ld "text" = some lt ∧
      (∃ sd, s.data = some sd ∧ dictGet sd "text" = some st) ∧
      r = msg.dropLast ++ [⟨last.type, some (dictSet ld "text" (lt ++ st))⟩]) := by
  rw [msgAppend] at h
  split at h
  · rename_i last hlast
    split at h
    · rename_i hcond
      split at h
      · rename_i ld hld
        split at h
        · rename_i lt hlt
          split at h
          · rename_i sd hsd
            split at h
            · rename_i st hst
              right
              refine ⟨last, ld, lt, st, hlast, hcond.1, hcond.2, hld, hlt,
                ⟨sd, hsd, hst⟩, ?_⟩
              cases h
              rfl
            · cases h
          · cases h
        · cases h
      · cases h
    · rename_i hcond
      left
      cases h
      exact ⟨rfl, fun l hl => by rw [hlast] at hl; cases hl; exact hcond⟩
  · rename_i hnone
    left
    cases h
    exact ⟨rfl, fun l hl => by rw [hnone] at hl; cases hl⟩

theorem msgAppend_push {msg : List MessageSegment} {s : MessageSegment}
    (hcond : ∀ last, msg.getLast? = some last →
      ¬(last.type = "text" ∧ s.type = "text")) :
    msgAppend msg s = .ok (msg ++ [s]) := by
  rw [msgAppend]
  match hl : msg.getLast? with
  | some last =>
    dsimp only
    rw [if_neg (hcond last hl)]
  | none => dsimp only

/-- C6: the adjacent-text merge of append: merging two text segments
keeps the element count and concatenates the payloads in place, any
other segment is appended as a new element; appending text a then
text b to the empty message yields the single segment text ab; and
append preserves the no-two-adjacent-text-segments invariant, so a
message built only through append and extend never contains two
adjacent text segments. -/
theorem C6_append_merge :
    (∀ msg s r, noAdjTexts msg = true → msgAppend msg s = .ok r →
      noAdjTexts r = true) ∧
    ((msgAppend [] (MessageSegment.text "a") >>= fun m =>
       msgAppend m (MessageSegment.text "b")) = .ok [MessageSegment.text "ab"]) ∧
    (∀ msg p q, msg.getLast? = some (MessageSegment.text p) →
      msgAppend msg (MessageSegment.text q) =
        .ok (msg.dropLast ++ [MessageSegment.text (p ++ q)])) ∧
    (∀ msg s, (∀ last, msg.getLast? = some last →
        ¬(last.type = "text" ∧ s.type = "text")) →
      msgAppend msg s = .ok (msg ++ [s])) := by
  refine ⟨?_, rfl, ?_, ?_⟩
  · intro msg s r hna h
    rcases msgAppend_cases h with ⟨hr, hcond⟩ | ⟨last, ld, lt, st, hlast, hty,
      hsty, hld, hlt, hsd, hr⟩
    · rw [hr]
      exact (noAdjTexts_concat_iff _ _).mpr ⟨hna, hcond⟩
    · rw [hr]
      have hmsg := eq_dropLast_concat hlast
      rw [hmsg] at hna
      have h2 := (noAdjTexts_concat_iff _ _).mp hna
      refine (noAdjTexts_concat_iff _ _).mpr ⟨h2.1, fun x hx => ?_⟩
      have := h2.2 x hx
      simpa [hty] using this
  · intro msg p q hlast
    rw [msgAppend, hlast]
    dsimp only
    simp [MessageSegment.text, dictGet, dictSet, List.find?]
  · intro msg s hcond
    exact msgAppend_push hcond

theorem C6_append_merge_witness :
    noAdjTexts [] = true ∧
    msgAppend [] (MessageSegment.text "a") = .ok [MessageSegment.text "a"] ∧
    noAdjTexts [MessageSegment.text "a"] = true :=
  ⟨rfl, rfl, C6_append_merge.1 [] (MessageSegment.text "a")
    [MessageSegment.text "a"] rfl rfl⟩


theorem reduceGo_noAdj :
    ∀ rest done r, reduceGo done rest = .ok r → noAdjTexts done = true →
      noAdjTexts r = true := by
  intro rest
  induction rest with
  | nil =>
    intro done r h hna
    rw [reduceGo] at h
    cases h
    exact hna
  | cons s rest ih =>
    intro done r h hna
    rw [reduceGo] at h
    split at h
    · rename_i last hlast
      split at h
      · rename_i hcond
        split at h
        · rename_i ld hld
          split at h
          · rename_i lt hlt
            split at h
            · rename_i sd hsd
              split at h
              · rename_i st hst
                refine ih _ _ h ?_
                have hmsg := eq_dropLast_concat hlast
                rw [hmsg] at hna
                have h2 := (noAdjTexts_concat_iff _ _).mp hna
                refine (noAdjTexts_concat_iff _ _).mpr ⟨h2.1, fun x hx => ?_⟩
                have := h2.2 x hx
                simpa [hcond.1] using this
              · cases h
            · cases h
          · cases h
        · cases h
      · rename_i hcond
        refine ih _ _ h ?_
        exact (noAdjTexts_concat_iff _ _).mpr
          ⟨hna, fun x hx => by rw [hlast] at hx; cases hx; exact hcond⟩
    · rename_i hnone
      refine ih _ _ h ?_
      exact (noAdjTexts_concat_iff _ _).mpr
        ⟨hna, fun x hx => by rw [hnone] at hx; cases hx⟩

theorem reduceGo_fix :
    ∀ rest done, noAdjTexts (done ++ rest) = true →
      reduceGo done rest = .ok (done ++ rest) := by
  intro rest
  induction rest with
  | nil =>
    intro done h
    rw [reduceGo]
    simp
  | cons s rest ih =>
    intro done h
    rw [reduceGo]
    have hassoc : done ++ s :: rest = (done ++ [s]) ++ rest := by simp
    split
    · rename_i last hlast
      have hpre : noAdjTexts (done ++ [s]) = true := by
        refine noAdjTexts_prefix _ rest ?_
        rw [← hassoc]
        exact h
      have hcond := ((noAdjTexts_concat_iff _ _).mp hpre).2 last hlast
      rw [if_neg hcond]
      rw [hassoc] at h ⊢
      exact ih _ h
    · rename_i hnone
      have hdone : done = [] := by
        cases done with
        | nil => rfl
        | cons a as => simp at hnone
      rw [hdone] at h ⊢
      simpa using ih [s] (by simpa using h)

/-- C9: reduce merges every run of adjacent text segments (a successful
reduce leaves no two adjacent text segments) and is idempotent: running
reduce after reduce gives exactly the result of the single run (errors
propagate unchanged through the second run). -/
theorem C9_reduce_idempotent (msg : List MessageSegment) :
    ((msgReduce msg >>= msgReduce) = msgReduce msg) ∧
    (∀ r, msgReduce msg = .ok r → noAdjTexts r = true) := by
  have h2 : ∀ r, msgReduce msg = .ok r → noAdjTexts r = true :=
    fun r h => reduceGo_noAdj msg [] r h rfl
  refine ⟨?_, h2⟩
  cases hm : msgReduce msg with
  | error e => rfl
  | ok r =>
    show msgReduce r = .ok r
    have := reduceGo_fix r [] (by simpa using h2 r hm)
    simpa [msgReduce] using this

theorem C9_reduce_idempotent_witness :
    msgReduce [MessageSegment.text "a", MessageSegment.text "b"] =
      .ok [MessageSegment.text "ab"] ∧
    noAdjTexts [MessageSegment.text "ab"] = true := by
  have h : msgReduce [MessageSegment.text "a", MessageSegment.text "b"] =
      .ok [MessageSegment.text "ab"] := rfl
  exact ⟨h, (C9_reduce_idempotent
    [MessageSegment.text "a", MessageSegment.text "b"]).2 _ h⟩


/-- The text payloads of a message in order (specification helper). -/
def textPayloads (msg : List MessageSegment) : List String :=
  msg.filterMap (fun s =>
    if s.type = "text" then some ((dictGet (s.data.getD []) "text").getD "")
    else none)

/-- All pieces joined with a single space between consecutive pieces
(specification helper, the behaviour of `' '.join`). -/
def joinSp : List String → String
  | [] => ""
  | [p] => p
  | p :: ps => p ++ " " ++ joinSp ps

/-- The concatenation `(' ' + p1) + (' ' + p2) + ...` built by the loop
of `extract_plain_text`. -/
def concatSp : List String → String
  | [] => ""
  | p :: ps => " " ++ p ++ concatSp ps

theorem concatSp_eq_joinSp :
    ∀ ps : List String, ps ≠ [] → concatSp ps = " " ++ joinSp ps := by
  intro ps
  induction ps with
  | nil => intro h; cases h rfl
  | cons p ps ih =>
    intro _
    cases ps with
    | nil => simp [concatSp, joinSp]
    | cons q qs =>
      rw [concatSp, ih (by simp)]
      rw [show joinSp (p :: q :: qs) = p ++ " " ++ joinSp (q :: qs) from rfl]
      simp [String.append_assoc]

theorem extract_fold (msg : List MessageSegment) (acc : String)
    (hp : ∀ s ∈ msg, s.type = "text" →
      ∃ d, s.data = some d ∧ ∃ t, dictGet d "text" = some t) :
    (msg.foldlM (fun acc s =>
      if s.type = "text" then
        match s.data with
        | some d =>
          match dictGet d "text" with
          | some t => .ok (acc ++ " " ++ t)
          | none => .error ()
        | none => .error ()
      else .ok acc) acc : Except Unit String) =
    .ok (acc ++ concatSp (textPayloads msg)) := by
  induction msg generalizing acc with
  | nil =>
    simp [textPayloads, concatSp]
    rfl
  | cons s rest ih =>
    rw [List.foldlM_cons]
    by_cases hs : s.type = "text"
    · obtain ⟨d, hd, t, ht⟩ := hp s (by simp) hs
      rw [if_pos hs, hd]
      dsimp only
      rw [ht]
      dsimp only
      show (rest.foldlM _ (acc ++ " " ++ t) : Except Unit String) = _
      rw [ih _ (fun x hx => hp x (by simp [hx]))]
      rw [show textPayloads (s :: rest) =
        ((dictGet (s.data.getD []) "text").getD "") :: textPayloads rest from by
          simp [textPayloads, hs]]
      rw [hd]
      simp [ht, concatSp, String.append_assoc]
    · rw [if_neg hs]
      show (rest.foldlM _ acc : Except Unit String) = _
      rw [ih _ (fun x hx => hp x (by simp [hx]))]
      rw [show textPayloads (s :: rest) = textPayloads rest from by
        simp [textPayloads, hs]]


theorem strMk_data (s : String) : (⟨s.data⟩ : String) = s := by
  cases s
  rfl

/-- C8 counterexample: extract_plain_text joins every text payload with
a space, empty payloads included, so a trailing empty text payload
leaves a trailing separator; the claim's reading (separator only
between non-empty pieces) predicts "a" where the code returns "a ". -/
theorem C8_counterexample_empty_piece :
    extractPlainText false [MessageSegment.text "a",
      ⟨"image", some [("file", "f")]⟩, MessageSegment.text ""] = .ok "a " ∧
    ("a " : String) ≠ "a" :=
  ⟨rfl, by decide⟩

/-- C8 amended: extract_plain_text optionally reduces first and then
returns all text payloads (empty ones included) joined by single
spaces, i.e. the space-intercalation of the payload list; non-text
segments contribute nothing.  On a message of only non-text segments
the payload list is empty and the result is the empty string. -/
theorem C8_extract_amended (msg : List MessageSegment)
    (hp : ∀ s ∈ msg, s.type = "text" →
      ∃ d, s.data = some d ∧ ∃ t, dictGet d "text" = some t) :
    extractPlainText false msg = .ok (joinSp (textPayloads msg)) ∧
    extractPlainText true msg =
      msgReduce msg >>= fun r => extractPlainText false r := by
  constructor
  · rw [extractPlainText]
    show ((msg.foldlM _ "" : Except Unit String) >>= _) = _
    rw [extract_fold msg "" hp]
    show Except.ok _ = _
    cases hps : textPayloads msg with
    | nil => simp [concatSp, joinSp]
    | cons p ps =>
      rw [concatSp_eq_joinSp _ (by simp)]
      have hne : ("" ++ (" " ++ joinSp (p :: ps))) ≠ "" := by
        intro h
        have := congrArg String.data h
        simp [String.data_append] at this
      rw [if_pos hne]
      have hdata : ("" ++ (" " ++ joinSp (p :: ps))).data =
          ' ' :: (joinSp (p :: ps)).data := by
        simp [String.data_append]
      rw [hdata]
      show Except.ok (⟨(joinSp (p :: ps)).data⟩ : String) = _
      rw [strMk_data]
  · rw [extractPlainText]
    cases hm : msgReduce msg with
    | error e => rfl
    | ok r => rfl

theorem C8_extract_amended_witness :
    (extractPlainText false [MessageSegment.text "a",
        ⟨"image", some [("file", "f")]⟩, MessageSegment.text "b"] =
      .ok (joinSp (textPayloads [MessageSegment.text "a",
        ⟨"image", some [("file", "f")]⟩, MessageSegment.text "b"])) ∧
     extractPlainText true [MessageSegment.text "a",
        ⟨"image", some [("file", "f")]⟩, MessageSegment.text "b"] =
      msgReduce [MessageSegment.text "a",
        ⟨"image", some [("file", "f")]⟩, MessageSegment.text "b"] >>=
        fun r => extractPlainText false r) ∧
    joinSp (textPayloads [MessageSegment.text "a",
      ⟨"image", some [("file", "f")]⟩, MessageSegment.text "b"]) = "a b" := by
  constructor
  · refine C8_extract_amended _ ?_
    intro s hs hst
    simp only [List.mem_cons, List.not_mem_nil, or_false] at hs
    rcases hs with rfl | rfl | rfl
    · exact ⟨_, rfl, _, rfl⟩
    · exact absurd hst (by decide)
    · exact ⟨_, rfl, _, rfl⟩
  · rfl


/-- Mapping every character to a replacement string (spec helper used
to reason about the escape passes). -/
def charMap (f : Char → List Char) : List Char → List Char
  | [] => []
  | c :: cs => f c ++ charMap f cs

theorem charMap_append (f : Char → List Char) (xs ys : List Char) :
    charMap f (xs ++ ys) = charMap f xs ++ charMap f ys := by
  induction xs with
  | nil => rfl
  | cons c cs ih => simp [charMap, ih]

theorem charMap_comp (g h : Char → List Char) (cs : List Char) :
    charMap g (charMap h cs) = charMap (fun c => charMap g (h c)) cs := by
  induction cs with
  | nil => rfl
  | cons c cs ih => simp [charMap, charMap_append, ih]

theorem charMap_congr (f g : Char → List Char) (hfg : ∀ c, f c = g c) :
    ∀ cs, charMap f cs = charMap g cs := by
  intro cs
  induction cs with
  | nil => rfl
  | cons c cs ih => simp [charMap, ih, hfg c]

theorem charMap_id : ∀ cs, charMap (fun c => [c]) cs = cs := by
  intro cs
  induction cs with
  | nil => rfl
  | cons c cs ih => simp [charMap, ih]

theorem replaceAll_match (pat rep : List Char) (hne : pat ≠ []) (t : List Char) :
    replaceAll pat rep (pat ++ t) = rep ++ replaceAll pat rep t := by
  cases pat with
  | nil => cases hne rfl
  | cons p ps =>
    have hpre : (p :: ps).isPrefixOf ((p :: ps) ++ t) = true :=
      List.isPrefixOf_iff_prefix.mpr (List.prefix_append _ _)
    rw [List.cons_append, replaceAll,
      if_pos ⟨by simp, by rw [← List.cons_append]; exact hpre⟩]
    rw [← List.cons_append, List.drop_left]

theorem replaceAll_skip (pat rep : List Char) (c : Char) (cs : List Char)
    (h : pat.isPrefixOf (c :: cs) = false) :
    replaceAll pat rep (c :: cs) = c :: replaceAll pat rep cs := by
  rw [replaceAll, if_neg]
  intro hc
  rw [h] at hc
  cases hc.2

theorem replaceAll_single (a : Char) (r : List Char) :
    ∀ cs, replaceAll [a] r cs = charMap (fun c => if c = a then r else [c]) cs := by
  intro cs
  induction cs with
  | nil => rw [replaceAll]; rfl
  | cons c cs ih =>
    by_cases h : a = c
    · subst h
      rw [show (a :: cs) = [a] ++ cs from rfl, replaceAll_match [a] r (by simp) cs,
        ih]
      rw [charMap_append]
      simp [charMap]
    · rw [replaceAll_skip _ _ _ _ ?_, ih]
      · rw [show charMap (fun x => if x = a then r else [x]) (c :: cs) =
          (if c = a then r else [c]) ++
            charMap (fun x => if x = a then r else [x]) cs from rfl]
        rw [if_neg (fun hc => h hc.symm)]
        rfl
      · simp [List.isPrefixOf]
        exact fun hc => absurd hc.symm (fun hx => h hx.symm)

/-- There is a mismatch between the pattern and the block within their
common length (so no tail can make the pattern a prefix there). -/
def hasMismatch (p B : List Char) : Bool :=
  (List.zip p B).any (fun pr => pr.1 != pr.2)

/-- Every suffix position of the block refutes the pattern within the
block itself. -/
def blockSkips (p : List Char) : List Char → Bool
  | [] => true
  | b :: B => hasMismatch p (b :: B) && blockSkips p B

theorem prefixMismatch :
    ∀ p l1 t : List Char, hasMismatch p l1 = true →
      p.isPrefixOf (l1 ++ t) = false := by
  intro p
  induction p with
  | nil => intro l1 t h; simp [hasMismatch] at h
  | cons p0 ps ih =>
    intro l1 t h
    cases l1 with
    | nil => simp [hasMismatch] at h
    | cons b l1 =>
      rw [hasMismatch, List.zip_cons_cons, List.any_cons] at h
      rw [List.cons_append, List.isPrefixOf]
      rcases Bool.or_eq_true_iff.mp h with h1 | h2
      · simp at h1
        simp [h1]
      · rw [Bool.and_eq_false_iff]
        right
        exact ih l1 t h2

theorem skipBlock (p rep : List Char) :
    ∀ B t, blockSkips p B = true →
      replaceAll p rep (B ++ t) = B ++ replaceAll p rep t := by
  intro B
  induction B with
  | nil => intro t _; rfl
  | cons b B ih =>
    intro t h
    rw [blockSkips, Bool.and_eq_true] at h
    rw [List.cons_append]
    rw [replaceAll_skip _ _ _ _ (by
      rw [← List.cons_append]
      exact prefixMismatch _ _ _ h.1)]
    rw [ih t h.2]
    rfl


/-- The per-character effect of the escape passes (all of them, or with
comma escaping off). -/
def escMap (comma : Bool) (c : Char) : List Char :=
  if c = '&' then "&amp;".toList
  else if c = '[' then "&#91;".toList
  else if c = ']' then "&#93;".toList
  else if comma ∧ c = ',' then "&#44;".toList
  else [c]

/-- The per-character state after reverting also the bracket escapes. -/
def escMapB (c : Char) : List Char :=
  if c = '&' then "&amp;".toList
  else if c = ']' then "&#93;".toList
  else [c]

/-- The per-character state with only the ampersand escape left. -/
def escMapC (c : Char) : List Char :=
  if c = '&' then "&amp;".toList else [c]

theorem escapeL_charMap (b : Bool) (cs : List Char) :
    escapeL b cs = charMap (escMap b) cs := by
  rw [escapeL]
  cases b with
  | false =>
    simp only [Bool.false_eq_true, if_false]
    simp only [replaceAll_single]
    simp only [charMap_comp]
    apply charMap_congr
    intro c
    by_cases h1 : c = '&'
    · subst h1; rfl
    · by_cases h2 : c = '['
      · subst h2; rfl
      · by_cases h3 : c = ']'
        · subst h3; rfl
        · simp [escMap, charMap, h1, h2, h3]
  | true =>
    simp only [if_true]
    simp only [replaceAll_single]
    simp only [charMap_comp]
    apply charMap_congr
    intro c
    by_cases h1 : c = '&'
    · subst h1; rfl
    · by_cases h2 : c = '['
      · subst h2; rfl
      · by_cases h3 : c = ']'
        · subst h3; rfl
        · by_cases h4 : c = ','
          · subst h4; rfl
          · simp [escMap, charMap, h1, h2, h3, h4]

theorem unesc_pass1 :
    ∀ s, replaceAll ("&#44;".toList) [','] (charMap (escMap true) s) =
      charMap (escMap false) s := by
  intro s
  induction s with
  | nil => rw [show charMap (escMap true) [] = [] from rfl, replaceAll]; rfl
  | cons c s ih =>
    rw [charMap, charMap]
    by_cases h1 : c = '&'
    · subst h1
      rw [show escMap true '&' = "&amp;".toList from rfl,
        show escMap false '&' = "&amp;".toList from rfl,
        skipBlock _ _ _ _ (by decide), ih]
    · by_cases h2 : c = '['
      · subst h2
        rw [show escMap true '[' = "&#91;".toList from rfl,
          show escMap false '[' = "&#91;".toList from rfl,
          skipBlock _ _ _ _ (by decide), ih]
      · by_cases h3 : c = ']'
        · subst h3
          rw [show escMap true ']' = "&#93;".toList from rfl,
            show escMap false ']' = "&#93;".toList from rfl,
            skipBlock _ _ _ _ (by decide), ih]
        · by_cases h4 : c = ','
          · subst h4
            rw [show escMap true ',' = "&#44;".toList from rfl,
              replaceAll_match _ _ (by decide) _, ih,
              show escMap false ',' = [','] from rfl]
          · rw [show escMap true c = [c] from by simp [escMap, h1, h2, h3, h4],
              show escMap false c = [c] from by simp [escMap, h1, h2, h3]]
            have hb : ('&' == c) = false := by
              simp
              exact fun hx => h1 hx.symm
            rw [show ([c] ++ charMap (escMap true) s) =
              c :: charMap (escMap true) s from rfl,
              replaceAll_skip _ _ _ _ (by simp [List.isPrefixOf, hb]), ih]
            rfl

theorem unesc_pass2 :
    ∀ s, replaceAll ("&#91;".toList) ['['] (charMap (escMap false) s) =
      charMap escMapB s := by
  intro s
  induction s with
  | nil => rw [show charMap (escMap false) [] = [] from rfl, replaceAll]; rfl
  | cons c s ih =>
    rw [charMap, charMap]
    by_cases h1 : c = '&'
    · subst h1
      rw [show escMap false '&' = "&amp;".toList from rfl,
        show escMapB '&' = "&amp;".toList from rfl,
        skipBlock _ _ _ _ (by decide), ih]
    · by_cases h2 : c = '['
      · subst h2
        rw [show escMap false '[' = "&#91;".toList from rfl,
          replaceAll_match _ _ (by decide) _, ih,
          show escMapB '[' = ['['] from rfl]
      · by_cases h3 : c = ']'
        · subst h3
          rw [show escMap false ']' = "&#93;".toList from rfl,
            show escMapB ']' = "&#93;".toList from rfl,
            skipBlock _ _ _ _ (by decide), ih]
        · rw [show escMap false c = [c] from by simp [escMap, h1, h2, h3],
            show escMapB c = [c] from by simp [escMapB, h1, h3]]
          have hb : ('&' == c) = false := by
            simp
            exact fun hx => h1 hx.symm
          rw [show ([c] ++ charMap (escMap false) s) =
            c :: charMap (escMap false) s from rfl,
            replaceAll_skip _ _ _ _ (by simp [List.isPrefixOf, hb]), ih]
          rfl

theorem unesc_pass3 :
    ∀ s, replaceAll ("&#93;".toList) [']'] (charMap escMapB s) =
      charMap escMapC s := by
  intro s
  induction s with
  | nil => rw [show charMap escMapB [] = [] from rfl, replaceAll]; rfl
  | cons c s ih =>
    rw [charMap, charMap]
    by_cases h1 : c = '&'
    · subst h1
      rw [show escMapB '&' = "&amp;".toList from rfl,
        show escMapC '&' = "&amp;".toList from rfl,
        skipBlock _ _ _ _ (by decide), ih]
    · by_cases h3 : c = ']'
      · subst h3
        rw [show escMapB ']' = "&#93;".toList from rfl,
          replaceAll_match _ _ (by decide) _, ih,
          show escMapC ']' = [']'] from rfl]
      · rw [show escMapB c = [c] from by simp [escMapB, h1, h3],
          show escMapC c = [c] from by simp [escMapC, h1]]
        have hb : ('&' == c) = false := by
          simp
          exact fun hx => h1 hx.symm
        rw [show ([c] ++ charMap escMapB s) = c :: charMap escMapB s from rfl,
          replaceAll_skip _ _ _ _ (by simp [List.isPrefixOf, hb]), ih]
        rfl

theorem unesc_pass4 :
    ∀ s, replaceAll ("&amp;".toList) ['&'] (charMap escMapC s) = s := by
  intro s
  induction s with
  | nil => rw [show charMap escMapC [] = [] from rfl, replaceAll]
  | cons c s ih =>
    rw [charMap]
    by_cases h1 : c = '&'
    · subst h1
      rw [show escMapC '&' = "&amp;".toList from rfl,
        replaceAll_match _ _ (by decide) _, ih]
      rfl
    · rw [show escMapC c = [c] from by simp [escMapC, h1]]
      have hb : ('&' == c) = false := by
        simp
        exact fun hx => h1 hx.symm
      rw [show ([c] ++ charMap escMapC s) = c :: charMap escMapC s from rfl,
        replaceAll_skip _ _ _ _ (by simp [List.isPrefixOf, hb]), ih]

theorem unescapeL_escapeL (s : List Char) : unescapeL (escapeL true s) = s := by
  rw [escapeL_charMap, unescapeL, unesc_pass1, unesc_pass2, unesc_pass3,
    unesc_pass4]


/-- Whether the character list contains an occurrence of the pattern. -/
def containsPat (pat : List Char) : List Char → Bool
  | [] => pat.isEmpty
  | c :: cs => pat.isPrefixOf (c :: cs) || containsPat pat cs

/-- C5: for every string that does not already contain one of the four
literal escape sequences, unescape(escape(s, escape_comma=True)) = s.
(The development in fact proves the inverse law for every string: escape
replaces every ampersand first, so the only occurrences of the escape
sequences in its output are the blocks escape itself introduced.) -/
theorem C5_escape_unescape (s : String)
    (h1 : containsPat ("&amp;".toList) s.data = false)
    (h2 : containsPat ("&#91;".toList) s.data = false)
    (h3 : containsPat ("&#93;".toList) s.data = false)
    (h4 : containsPat ("&#44;".toList) s.data = false) :
    unescape (escape s true) = s := by
  rw [escape, unescape]
  show (⟨unescapeL (escapeL true s.data)⟩ : String) = s
  rw [unescapeL_escapeL]

theorem C5_escape_unescape_witness :
    (containsPat ("&amp;".toList) "a,[x]&".data = false ∧
     containsPat ("&#91;".toList) "a,[x]&".data = false ∧
     containsPat ("&#93;".toList) "a,[x]&".data = false ∧
     containsPat ("&#44;".toList) "a,[x]&".data = false) ∧
    unescape (escape "a,[x]&" true) = "a,[x]&" :=
  ⟨⟨by decide, by decide, by decide, by decide⟩,
   C5_escape_unescape "a,[x]&" (by decide) (by decide) (by decide) (by decide)⟩


/-! ### Round trip: composition side -/

/-- Characters of a text payload that escape (without comma escaping)
leaves unchanged and that cannot open or close a CQ token. -/
def cleanTextChar (c : Char) : Bool := !(c == '&' || c == '[' || c == ']')

/-- Characters of a parameter value that escape leaves unchanged and
that cannot end a parameter group. -/
def cleanValueChar (c : Char) : Bool :=
  !(c == '&' || c == '[' || c == ']' || c == ',')

/-- No key occurs twice. -/
def noDupKeys : List (String × String) → Bool
  | [] => true
  | kv :: rest => !(rest.any (fun kv2 => kv2.1 == kv.1)) && noDupKeys rest

/-- A segment that survives the compose/parse round trip: a text segment
carries exactly the reserved key with a nonempty clean payload; any
other segment has a nonempty identifier type and identifier keys with
clean values, no key twice. -/
def wfSeg (s : MessageSegment) : Bool :=
  if s.type == "text" then
    match s.data with
    | some [(k, v)] => k == "text" && v != "" && v.data.all cleanTextChar
    | _ => false
  else
    s.type != "" && s.type.data.all identChar &&
    match s.data with
    | some d =>
      d.all (fun kv => kv.1 != "" && kv.1.data.all identChar &&
        kv.2.data.all cleanValueChar) && noDupKeys d
    | none => false

def wfMsg (msg : List MessageSegment) : Bool := msg.all wfSeg

/-- The captured params text of a rendered token: one `,key=value`
group per entry. -/
def paramsConcat : List (String × String) → List Char
  | [] => []
  | (k, v) :: rest => ',' :: (k.data ++ '=' :: (v.data ++ paramsConcat rest))

/-- The same text with the leading comma stripped, as `lstrip(',')`
leaves it for the params builder. -/
def innerParams : List (String × String) → List Char
  | [] => []
  | (k, v) :: rest => k.data ++ '=' :: (v.data ++ paramsConcat rest)

/-- The characters of a rendered non-text token. -/
def tokenChars (t : String) (d : List (String × String)) : List Char :=
  '[' :: 'C' :: 'Q' :: ':' :: (t.data ++ (paramsConcat d ++ [']']))

/-- The characters of a text segment payload as read by `__str__`. -/
def payloadChars (s : MessageSegment) : List Char :=
  ((dictGet (s.data.getD []) "text").getD "").data

/-- The characters a well-formed segment renders to. -/
def renderChars (s : MessageSegment) : List Char :=
  if s.type = "text" then payloadChars s
  else tokenChars s.type (s.data.getD [])

theorem charMap_clean (f : Char → List Char) :
    ∀ cs, (∀ c ∈ cs, f c = [c]) → charMap f cs = cs := by
  intro cs
  induction cs with
  | nil => intro _; rfl
  | cons c cs ih =>
    intro h
    rw [charMap, h c (by simp), ih (fun x hx => h x (by simp [hx]))]
    rfl

theorem escMap_clean_comma (c : Char) (hv : cleanValueChar c = true) :
    escMap true c = [c] := by
  rw [escMap]
  rw [if_neg ?h1]
  rotate_left
  case h1 => intro h; subst h; simp [cleanValueChar] at hv
  rw [if_neg ?h2]
  rotate_left
  case h2 => intro h; subst h; simp [cleanValueChar] at hv
  rw [if_neg ?h3]
  rotate_left
  case h3 => intro h; subst h; simp [cleanValueChar] at hv
  rw [if_neg ?h4]
  case h4 =>
    intro h
    have := h.2
    subst this
    simp [cleanValueChar] at hv

theorem escMap_clean_text (c : Char) (hv : cleanTextChar c = true) :
    escMap false c = [c] := by
  rw [escMap]
  rw [if_neg ?h1]
  rotate_left
  case h1 => intro h; subst h; simp [cleanTextChar] at hv
  rw [if_neg ?h2]
  rotate_left
  case h2 => intro h; subst h; simp [cleanTextChar] at hv
  rw [if_neg ?h3]
  rotate_left
  case h3 => intro h; subst h; simp [cleanTextChar] at hv
  rw [if_neg ?h4]
  case h4 => intro h; cases h.1

theorem escapeL_clean_comma (v : List Char) (h : v.all cleanValueChar = true) :
    escapeL true v = v := by
  rw [escapeL_charMap]
  exact charMap_clean _ v
    (fun c hc => escMap_clean_comma c (List.all_eq_true.mp h c hc))

theorem escapeL_clean_text (v : List Char) (h : v.all cleanTextChar = true) :
    escapeL false v = v := by
  rw [escapeL_charMap]
  exact charMap_clean _ v
    (fun c hc => escMap_clean_text c (List.all_eq_true.mp h c hc))

theorem msgSegStr_text (p : String) :
    msgSegStr ⟨"text", some [("text", p)]⟩ =
      .ok ⟨escapeL false p.data⟩ := by
  rw [msgSegStr]
  rfl


theorem strData_inj {a b : String} (h : a.data = b.data) : a = b := by
  cases a
  cases b
  cases h
  rfl

/-- The separator-prefixed concatenation built by the go loop of
String.intercalate. -/
def concatSep (s : String) : List String → String
  | [] => ""
  | a :: as => s ++ a ++ concatSep s as

theorem interGo (s : String) :
    ∀ as acc, String.intercalate.go acc s as = acc ++ concatSep s as := by
  intro as
  induction as with
  | nil =>
    intro acc
    rw [String.intercalate.go, concatSep, String.append_empty]
  | cons a as ih =>
    intro acc
    rw [String.intercalate.go, ih, concatSep]
    simp [String.append_assoc]

theorem intercalate_cons (s : String) (a : String) (as : List String) :
    String.intercalate s (a :: as) = a ++ concatSep s as := by
  rw [String.intercalate, interGo]

theorem concatSep_comma_data (d : List (String × String))
    (f : String × String → String)
    (hf : ∀ kv ∈ d, (f kv).data = kv.1.data ++ '=' :: kv.2.data) :
    (concatSep "," (d.map f)).data = paramsConcat d := by
  induction d with
  | nil => rfl
  | cons kv rest ih =>
    rw [List.map_cons, concatSep, paramsConcat]
    rw [String.data_append, String.data_append]
    rw [hf kv (by simp), ih (fun x hx => hf x (by simp [hx]))]
    simp

theorem msgSegStr_token (t : String) (d : List (String × String))
    (ht : t ≠ "text")
    (hkeys : ∀ kv ∈ d, kv.1 ≠ "" ∧ kv.2.data.all cleanValueChar = true) :
    msgSegStr ⟨t, some d⟩ = .ok ⟨tokenChars t d⟩ := by
  rw [msgSegStr, if_neg ht]
  dsimp only
  have hpiece : ∀ kv ∈ d,
      (kv.1 ++ "=" ++ String.mk (escapeL true kv.2.data)).data =
        kv.1.data ++ '=' :: kv.2.data := by
    intro kv hkv
    rw [escapeL_clean_comma _ (hkeys kv hkv).2]
    rw [String.data_append, String.data_append]
    simp
  refine congrArg Except.ok (strData_inj ?_)
  cases d with
  | nil =>
    rw [show String.intercalate "," (List.map _ []) = "" from rfl]
    rw [if_neg (by simp)]
    simp only [String.data_append]
    simp [tokenChars, paramsConcat]
  | cons kv rest =>
    rw [List.map_cons, intercalate_cons]
    have hne : (kv.1 ++ "=" ++ String.mk (escapeL true kv.2.data) ++
        concatSep "," (rest.map (fun kv =>
          kv.1 ++ "=" ++ String.mk (escapeL true kv.2.data)))) ≠ "" := by
      intro hcon
      have := congrArg String.data hcon
      rw [String.data_append, String.data_append, String.data_append] at this
      have hk1 := (hkeys kv (by simp)).1
      cases hk : kv.1.data with
      | nil => exact hk1 (strData_inj (by rw [hk]))
      | cons c cs => rw [hk] at this; simp at this
    rw [if_pos hne]
    simp only [String.data_append]
    simp [tokenChars, paramsConcat, escapeL_clean_comma _ (hkeys kv (by simp)).2,
      concatSep_comma_data rest _ (fun x hx => hpiece x (by simp [hx]))]


theorem msgSegStr_wf (s : MessageSegment) (hw : wfSeg s = true) :
    msgSegStr s = .ok ⟨renderChars s⟩ := by
  by_cases h : s.type = "text"
  · rw [wfSeg, if_pos (by simp [h])] at hw
    rcases hsd : s.data with _ | d
    · rw [hsd] at hw; simp at hw
    · rcases d with _ | ⟨⟨k, v⟩, rest⟩
      · rw [hsd] at hw; simp at hw
      · rcases rest with _ | _
        · rw [hsd] at hw
          simp only [Bool.and_eq_true, beq_iff_eq, bne_iff_ne] at hw
          obtain ⟨⟨hk, hv⟩, hclean⟩ := hw
          subst hk
          rw [msgSegStr, if_pos h, hsd]
          dsimp only
          rw [renderChars, if_pos h, payloadChars, hsd]
          rw [show dictGet [("text", v)] "text" = some v from rfl]
          rw [show (some v).getD "" = v from rfl]
          rw [show ((some [("text", v)]).getD []) = [("text", v)] from rfl]
          rw [show dictGet [("text", v)] "text" = some v from rfl]
          rw [show (some v).getD "" = v from rfl]
          rw [escapeL_clean_text _ hclean]
        · rw [hsd] at hw; simp at hw
  · rw [wfSeg, if_neg (by simp [h])] at hw
    rcases hsd : s.data with _ | d
    · rw [hsd] at hw; simp at hw
    · rw [hsd] at hw
      simp only [Bool.and_eq_true, bne_iff_ne] at hw
      obtain ⟨⟨hty, htyid⟩, hall, hnd⟩ := hw
      have := msgSegStr_token s.type d h (fun kv hkv => by
        have := List.all_eq_true.mp hall kv hkv
        simp only [Bool.and_eq_true, bne_iff_ne] at this
        exact ⟨this.1.1, this.2⟩)
      rw [show (⟨s.type, some d⟩ : MessageSegment) = s from by
        rw [← hsd]] at this
      rw [this, renderChars, if_neg h, hsd]
      rfl

theorem foldl_append_data :
    ∀ (l : List String) (acc : String),
      (l.foldl (fun a b => a ++ b) acc).data =
        acc.data ++ (l.map String.data).flatten := by
  intro l
  induction l with
  | nil => intro acc; simp
  | cons a as ih =>
    intro acc
    rw [List.foldl_cons, ih, List.map_cons, List.flatten_cons]
    rw [String.data_append]
    simp

theorem join_data (l : List String) :
    (String.join l).data = (l.map String.data).flatten := by
  rw [String.join]
  rw [foldl_append_data]
  rfl

theorem mapM_segStr (msg : List MessageSegment)
    (h : ∀ s ∈ msg, msgSegStr s = .ok ⟨renderChars s⟩) :
    msg.mapM msgSegStr =
      .ok (msg.map (fun s => (⟨renderChars s⟩ : String))) := by
  induction msg with
  | nil => rfl
  | cons s rest ih =>
    rw [List.mapM_cons, h s (by simp)]
    rw [show (rest.mapM msgSegStr) =
      .ok (rest.map (fun s => (⟨renderChars s⟩ : String))) from
        ih (fun x hx => h x (by simp [hx]))]
    rfl

theorem messageStr_wf (msg : List MessageSegment) (hw : wfMsg msg = true) :
    messageStr msg = .ok ⟨(msg.map renderChars).flatten⟩ := by
  rw [messageStr]
  rw [mapM_segStr msg (fun s hs =>
    msgSegStr_wf s (List.all_eq_true.mp hw s hs))]
  refine congrArg Except.ok (strData_inj ?_)
  rw [join_data]
  rw [List.map_map]
  rfl


/-! ### Round trip: scanner side -/

/-- A parameter value character accepted by the regex class `[^,\]]`. -/
def vOkChar (c : Char) : Bool := !(c == ',' || c == ']')

theorem identChar_not_delim (c : Char) (h : identChar c = true) :
    c ≠ ']' ∧ c ≠ ',' ∧ c ≠ '=' ∧ c ≠ '[' ∧ pyWs c = false ∧ c ≠ '&' := by
  refine ⟨?_, ?_, ?_, ?_, ?_, ?_⟩
  · intro hc; subst hc; exact absurd h (by decide)
  · intro hc; subst hc; exact absurd h (by decide)
  · intro hc; subst hc; exact absurd h (by decide)
  · intro hc; subst hc; exact absurd h (by decide)
  · by_cases hw : pyWs c = true
    · simp [pyWs] at hw
      rcases hw with ((((hc | hc) | hc) | hc) | hc) | hc <;>
        (subst hc; exact absurd h (by decide))
    · simpa using hw
  · intro hc; subst hc; exact absurd h (by decide)

theorem strNeEmpty_data {k : String} (h : k ≠ "") : k.data ≠ [] := by
  intro hd
  exact h (strData_inj (by rw [hd]))

theorem takeWhile_append_stop (p : Char → Bool) :
    ∀ (A : List Char) (b : Char) (r : List Char),
      (∀ c ∈ A, p c = true) → p b = false →
        (A ++ b :: r).takeWhile p = A := by
  intro A
  induction A with
  | nil =>
    intro b r _ hb
    simp [List.takeWhile, hb]
  | cons a A ih =>
    intro b r hA hb
    rw [List.cons_append, List.takeWhile]
    rw [hA a (by simp)]
    rw [ih b r (fun c hc => hA c (by simp [hc])) hb]

theorem dropWhile_append_stop (p : Char → Bool) :
    ∀ (A : List Char) (b : Char) (r : List Char),
      (∀ c ∈ A, p c = true) → p b = false →
        (A ++ b :: r).dropWhile p = b :: r := by
  intro A
  induction A with
  | nil =>
    intro b r _ hb
    simp [List.dropWhile, hb]
  | cons a A ih =>
    intro b r hA hb
    rw [List.cons_append, List.dropWhile]
    rw [hA a (by simp)]
    exact ih b r (fun c hc => hA c (by simp [hc])) hb

theorem matchAt_ne_lbracket (c : Char) (cs : List Char) (h : c ≠ '[') :
    matchAt (c :: cs) = none := by
  rw [matchAt, if_neg]
  intro hpre
  rw [show ("[CQ:".toList) = '[' :: 'C' :: 'Q' :: ':' :: [] from rfl] at hpre
  rw [List.isPrefixOf] at hpre
  simp at hpre
  exact h hpre.1.symm

theorem scan_text :
    ∀ (A : List Char), (∀ c ∈ A, c ≠ '[') →
      ∀ X gap, scanAux (A ++ X) gap = scanAux X (gap ++ A) := by
  intro A
  induction A with
  | nil => intro _ X gap; simp
  | cons a A ih =>
    intro hA X gap
    rw [List.cons_append]
    rw [scanAux_none_cons gap (matchAt_ne_lbracket a _ (hA a (by simp)))]
    rw [ih (fun c hc => hA c (by simp [hc])) X (gap ++ [a])]
    simp


theorem paramsConcat_head (d : List (String × String)) (rest : List Char) :
    ∃ b X, paramsConcat d ++ ']' :: rest = b :: X ∧
      (!(b == ',' || b == ']')) = false ∧ identChar b = false := by
  cases d with
  | nil => exact ⟨']', rest, rfl, by decide, by decide⟩
  | cons kv d' =>
    refine ⟨',', (kv.1.data ++ '=' :: (kv.2.data ++ paramsConcat d')) ++
      ']' :: rest, ?_, by decide, by decide⟩
    rw [show paramsConcat (kv :: d') =
      ',' :: (kv.1.data ++ '=' :: (kv.2.data ++ paramsConcat d')) from by
        rw [paramsConcat]]
    rfl

theorem mpl_render :
    ∀ (d : List (String × String)) (rest acc : List Char),
      (∀ kv ∈ d, kv.1 ≠ "" ∧ kv.1.data.all identChar = true ∧
        kv.2.data.all vOkChar = true) →
      matchParamsLoop (paramsConcat d ++ ']' :: rest) acc =
        some (acc ++ paramsConcat d, rest) := by
  intro d
  induction d with
  | nil =>
    intro rest acc _
    rw [show paramsConcat [] ++ ']' :: rest = ']' :: rest from rfl]
    rw [matchParamsLoop]
    simp [paramsConcat]
  | cons kv d' ih =>
    intro rest acc hd
    obtain ⟨hk, hkid, hv⟩ := hd kv (by simp)
    obtain ⟨k, v⟩ := kv
    rw [show paramsConcat ((k, v) :: d') ++ ']' :: rest =
      ',' :: (k.data ++ '=' :: (v.data ++ (paramsConcat d' ++ ']' :: rest)))
      from by rw [paramsConcat]; simp]
    rw [matchParamsLoop]
    rw [if_neg (by decide : ¬(',' : Char) = ']'), if_pos rfl]
    obtain ⟨c0, k', hk0⟩ : ∃ c0 k', k.data = c0 :: k' := by
      cases hkd : k.data with
      | nil => exact absurd hkd (strNeEmpty_data hk)
      | cons a b => exact ⟨a, b, rfl⟩
    have hc0id : identChar c0 = true :=
      List.all_eq_true.mp hkid c0 (by rw [hk0]; simp)
    have hhead : ¬((k.data ++ '=' ::
        (v.data ++ (paramsConcat d' ++ ']' :: rest))).head? = some ']') := by
      intro hcon
      rw [hk0, List.cons_append, List.head?_cons] at hcon
      simp at hcon
      exact (identChar_not_delim c0 hc0id).1 hcon
    rw [if_neg hhead]
    have hkeyid : ∀ c ∈ k.data, identChar c = true := List.all_eq_true.mp hkid
    rw [takeWhile_append_stop identChar k.data '=' _ hkeyid (by decide)]
    rw [if_neg (strNeEmpty_data hk)]
    rw [dropWhile_append_stop identChar k.data '=' _ hkeyid (by decide)]
    obtain ⟨b, X, hbX, hbv, hbid⟩ := paramsConcat_head d' rest
    have hvOkAll : ∀ c ∈ '=' :: v.data, (!(c == ',' || c == ']')) = true := by
      intro c hc
      rcases List.mem_cons.mp hc with rfl | hc2
      · decide
      · exact List.all_eq_true.mp hv c hc2
    rw [show '=' :: (v.data ++ (paramsConcat d' ++ ']' :: rest)) =
      ('=' :: v.data) ++ b :: X from by rw [hbX]; simp]
    dsimp only
    rw [takeWhile_append_stop _ ('=' :: v.data) b X hvOkAll hbv]
    rw [dropWhile_append_stop _ ('=' :: v.data) b X hvOkAll hbv]
    rw [← hbX]
    rw [ih rest _ (fun kv2 h2 => hd kv2 (by simp [h2]))]
    rw [show paramsConcat ((k, v) :: d') =
      ',' :: (k.data ++ '=' :: (v.data ++ paramsConcat d')) from by
        rw [paramsConcat]]
    simp


theorem wfSeg_text_shape {s : MessageSegment} (hw : wfSeg s = true)
    (h : s.type = "text") :
    ∃ v, s.data = some [("text", v)] ∧ v ≠ "" ∧
      v.data.all cleanTextChar = true := by
  rw [wfSeg, if_pos (by simp [h])] at hw
  rcases hsd : s.data with _ | d
  · rw [hsd] at hw; simp at hw
  · rcases d with _ | ⟨⟨k, v⟩, rest⟩
    · rw [hsd] at hw; simp at hw
    · rcases rest with _ | _
      · rw [hsd] at hw
        simp only [Bool.and_eq_true, beq_iff_eq, bne_iff_ne] at hw
        obtain ⟨⟨hk, hv⟩, hclean⟩ := hw
        subst hk
        exact ⟨v, rfl, hv, hclean⟩
      · rw [hsd] at hw; simp at hw

theorem wfSeg_token_shape {s : MessageSegment} (hw : wfSeg s = true)
    (h : ¬ s.type = "text") :
    s.type ≠ "" ∧ s.type.data.all identChar = true ∧
      ∃ d, s.data = some d ∧
        (∀ kv ∈ d, kv.1 ≠ "" ∧ kv.1.data.all identChar = true ∧
          kv.2.data.all cleanValueChar = true) ∧ noDupKeys d = true := by
  rw [wfSeg, if_neg (by simp [h])] at hw
  rcases hsd : s.data with _ | d
  · rw [hsd] at hw; simp at hw
  · rw [hsd] at hw
    simp only [Bool.and_eq_true, bne_iff_ne] at hw
    obtain ⟨⟨hty, htyid⟩, hall, hnd⟩ := hw
    refine ⟨hty, htyid, d, rfl, ?_, hnd⟩
    intro kv hkv
    have := List.all_eq_true.mp hall kv hkv
    simp only [Bool.and_eq_true, bne_iff_ne] at this
    exact ⟨this.1.1, this.1.2, this.2⟩

theorem cleanValue_vOk {v : String} (h : v.data.all cleanValueChar = true) :
    v.data.all vOkChar = true := by
  rw [List.all_eq_true] at h ⊢
  intro c hc
  have := h c hc
  simp [cleanValueChar] at this
  simp [vOkChar]
  exact ⟨this.2, this.1.2⟩

theorem matchAt_token (t : String) (d : List (String × String))
    (rest : List Char)
    (htid : t.data.all identChar = true) (htne : t ≠ "")
    (hd : ∀ kv ∈ d, kv.1 ≠ "" ∧ kv.1.data.all identChar = true ∧
      kv.2.data.all vOkChar = true) :
    matchAt (tokenChars t d ++ rest) = some (t, paramsConcat d, rest) := by
  rw [tokenChars, matchAt]
  rw [if_pos (by simp [List.isPrefixOf])]
  dsimp only
  rw [show ((('[' :: 'C' :: 'Q' :: ':' ::
      (t.data ++ (paramsConcat d ++ [']']))) ++ rest).drop 4) =
    t.data ++ (paramsConcat d ++ ']' :: rest) from by simp]
  obtain ⟨b, X, hbX, hbv, hbid⟩ := paramsConcat_head d rest
  rw [show t.data ++ (paramsConcat d ++ ']' :: rest) = t.data ++ b :: X from by
    rw [hbX]]
  rw [takeWhile_append_stop identChar t.data b X (List.all_eq_true.mp htid) hbid]
  rw [if_neg (strNeEmpty_data htne)]
  rw [dropWhile_append_stop identChar t.data b X (List.all_eq_true.mp htid) hbid]
  rw [← hbX]
  rw [mpl_render d rest [] hd]
  simp

theorem paramsConcat_dropComma (d : List (String × String))
    (hd : ∀ kv ∈ d, kv.1 ≠ "" ∧ kv.1.data.all identChar = true) :
    (paramsConcat d).dropWhile (fun c => c == ',') = innerParams d := by
  cases d with
  | nil => rfl
  | cons kv d' =>
    obtain ⟨hk, hkid⟩ := hd kv (by simp)
    rw [paramsConcat, innerParams]
    rw [List.dropWhile_cons]
    rw [if_pos (by decide)]
    obtain ⟨c0, k', hk0⟩ : ∃ c0 k', kv.1.data = c0 :: k' := by
      cases hkd : kv.1.data with
      | nil => exact absurd hkd (strNeEmpty_data hk)
      | cons a b => exact ⟨a, b, rfl⟩
    rw [hk0, List.cons_append, List.dropWhile_cons]
    rw [if_neg (by
      have := List.all_eq_true.mp hkid c0 (by rw [hk0]; simp)
      simp
      exact (identChar_not_delim c0 this).2.1)]

/-- The name/extra pairs the scanner yields for the rendering of a
well-formed message, with a pending text gap. -/
def expectedScan (gap : List Char) : List MessageSegment →
    List (String × List Char)
  | [] => [("text", gap)]
  | s :: rest =>
    if s.type = "text" then expectedScan (gap ++ payloadChars s) rest
    else ("text", gap) :: (s.type, innerParams (s.data.getD [])) ::
      expectedScan [] rest

theorem wfMsg_rest {s : MessageSegment} {rest : List MessageSegment}
    (hw : wfMsg (s :: rest) = true) : wfMsg rest = true := by
  rw [wfMsg, List.all_eq_true] at hw ⊢
  exact fun x hx => hw x (by simp [hx])

theorem scan_main :
    ∀ msg gap, wfMsg msg = true →
      scanAux ((msg.map renderChars).flatten) gap = expectedScan gap msg := by
  intro msg
  induction msg with
  | nil =>
    intro gap _
    rw [show ((List.map renderChars []).flatten) = [] from rfl]
    rw [scanAux_nil, expectedScan]
  | cons s rest ih =>
    intro gap hw
    have hws : wfSeg s = true := List.all_eq_true.mp hw s (by simp)
    have hwr : wfMsg rest = true := wfMsg_rest hw
    rw [List.map_cons, List.flatten_cons]
    by_cases h : s.type = "text"
    · obtain ⟨v, hsd, hv, hclean⟩ := wfSeg_text_shape hws h
      have hnl : ∀ c ∈ renderChars s, c ≠ '[' := by
        intro c hc
        rw [renderChars, if_pos h, payloadChars, hsd] at hc
        have := List.all_eq_true.mp hclean c (by
          simpa using hc)
        simp [cleanTextChar] at this
        exact this.1.2
      rw [scan_text _ hnl _ gap, ih _ hwr]
      rw [expectedScan, if_pos h]
      rw [renderChars, if_pos h]
    · obtain ⟨hty, htyid, d, hsd, hkv, hnd⟩ := wfSeg_token_shape hws h
      rw [renderChars, if_neg h, hsd]
      rw [show (some d).getD [] = d from rfl]
      rw [scanAux_some gap (matchAt_token s.type d _ htyid hty
        (fun kv hkv2 => ⟨(hkv kv hkv2).1, (hkv kv hkv2).2.1,
          cleanValue_vOk (hkv kv hkv2).2.2⟩))]
      rw [paramsConcat_dropComma d (fun kv hkv2 => ⟨(hkv kv hkv2).1,
        (hkv kv hkv2).2.1⟩)]
      rw [ih [] hwr]
      rw [expectedScan, if_neg h, hsd]
      rfl


theorem splitEq1_append :
    ∀ (A : List Char), (∀ c ∈ A, c ≠ '=') → ∀ B,
      splitEq1 (A ++ '=' :: B) = some (A, B) := by
  intro A
  induction A with
  | nil => intro _ B; simp [splitEq1]
  | cons a A ih =>
    intro hA B
    rw [List.cons_append, splitEq1]
    rw [if_neg (hA a (by simp))]
    rw [ih (fun c hc => hA c (by simp [hc])) B]
    rfl

theorem splitOnComma_nocomma :
    ∀ (A : List Char), (∀ c ∈ A, c ≠ ',') → splitOnComma A = [A] := by
  intro A
  induction A with
  | nil => intro _; rfl
  | cons a A ih =>
    intro hA
    rw [splitOnComma, if_neg (hA a (by simp))]
    rw [ih (fun c hc => hA c (by simp [hc]))]

theorem splitOnComma_append :
    ∀ (A : List Char), (∀ c ∈ A, c ≠ ',') → ∀ B,
      splitOnComma (A ++ ',' :: B) = A :: splitOnComma B := by
  intro A
  induction A with
  | nil => intro _ B; simp [splitOnComma]
  | cons a A ih =>
    intro hA B
    rw [List.cons_append, splitOnComma, if_neg (hA a (by simp))]
    rw [ih (fun c hc => hA c (by simp [hc])) B]

theorem paramsConcat_eq_cons (kv : String × String) (d : List (String × String)) :
    paramsConcat (kv :: d) = ',' :: innerParams (kv :: d) := by
  rw [paramsConcat, innerParams]

theorem innerParams_cons_ne (kv kv2 : String × String)
    (d : List (String × String)) :
    innerParams (kv :: kv2 :: d) =
      (kv.1.data ++ '=' :: kv.2.data) ++ ',' :: innerParams (kv2 :: d) := by
  rw [innerParams, paramsConcat_eq_cons]
  simp

theorem keyChars_no_comma {k : String} (hkid : k.data.all identChar = true) :
    ∀ c ∈ k.data ++ '=' :: [], c ≠ ',' := by
  intro c hc
  rcases List.mem_append.mp hc with hc1 | hc2
  · exact (identChar_not_delim c (List.all_eq_true.mp hkid c hc1)).2.1
  · simp at hc2
    subst hc2
    decide

theorem piece_no_comma {k v : String} (hkid : k.data.all identChar = true)
    (hv : v.data.all cleanValueChar = true) :
    ∀ c ∈ k.data ++ '=' :: v.data, c ≠ ',' := by
  intro c hc
  rcases List.mem_append.mp hc with hc1 | hc2
  · exact (identChar_not_delim c (List.all_eq_true.mp hkid c hc1)).2.1
  · rcases List.mem_cons.mp hc2 with rfl | hc3
    · decide
    · have := List.all_eq_true.mp hv c hc3
      simp [cleanValueChar] at this
      intro hcon
      exact this.2 hcon

theorem dropWhile_pyWs_piece {k v : String} (hk : k ≠ "")
    (hkid : k.data.all identChar = true) :
    (k.data ++ '=' :: v.data).dropWhile pyWs = k.data ++ '=' :: v.data := by
  obtain ⟨c0, k', hk0⟩ : ∃ c0 k', k.data = c0 :: k' := by
    cases hkd : k.data with
    | nil => exact absurd hkd (strNeEmpty_data hk)
    | cons a b => exact ⟨a, b, rfl⟩
  rw [hk0, List.cons_append, List.dropWhile_cons]
  rw [if_neg (by
    rw [(identChar_not_delim c0
      (List.all_eq_true.mp hkid c0 (by rw [hk0]; simp))).2.2.2.2.1]
    simp)]

theorem pieces_inner :
    ∀ d : List (String × String),
      (∀ kv ∈ d, kv.1 ≠ "" ∧ kv.1.data.all identChar = true ∧
        kv.2.data.all cleanValueChar = true) →
      ((splitOnComma (innerParams d)).map
        (fun p => p.dropWhile pyWs)).filter (fun p => p ≠ []) =
      d.map (fun kv => kv.1.data ++ '=' :: kv.2.data) := by
  intro d
  induction d with
  | nil => intro _; rfl
  | cons kv d' ih =>
    intro hd
    obtain ⟨hk, hkid, hv⟩ := hd kv (by simp)
    have hpiece_ne : kv.1.data ++ '=' :: kv.2.data ≠ [] := by
      intro hcon
      rcases List.append_eq_nil.mp hcon with ⟨_, h2⟩
      cases h2
    cases d' with
    | nil =>
      rw [show innerParams [kv] = kv.1.data ++ '=' :: kv.2.data from by
        rw [innerParams, paramsConcat, List.append_nil]]
      rw [splitOnComma_nocomma _ (piece_no_comma hkid hv)]
      rw [List.map_cons, List.map_nil, dropWhile_pyWs_piece hk hkid]
      rw [List.filter_cons]
      rw [if_pos (by simpa using hpiece_ne)]
      rfl
    | cons kv2 d2 =>
      rw [innerParams_cons_ne]
      rw [splitOnComma_append _ (piece_no_comma hkid hv) _]
      rw [List.map_cons, dropWhile_pyWs_piece hk hkid]
      rw [List.filter_cons, if_pos (by simpa using hpiece_ne)]
      rw [ih (fun x hx => hd x (by simp [hx]))]
      rfl

theorem dictSet_notmem :
    ∀ (acc : List (String × String)) (k : String) (v : String),
      (∀ kv ∈ acc, kv.1 ≠ k) → dictSet acc k v = acc ++ [(k, v)] := by
  intro acc
  induction acc with
  | nil => intro k v _; rfl
  | cons kv acc ih =>
    intro k v h
    rw [dictSet]
    rw [if_neg (by simpa using h kv (by simp))]
    rw [ih k v (fun x hx => h x (by simp [hx]))]
    rfl

theorem buildParams_fold :
    ∀ (d acc : List (String × String)),
      (∀ kv ∈ d, kv.1 ≠ "" ∧ kv.1.data.all identChar = true) →
      noDupKeys d = true →
      (∀ kv ∈ d, ∀ kv2 ∈ acc, kv2.1 ≠ kv.1) →
      ((d.map (fun kv => kv.1.data ++ '=' :: kv.2.data)).foldlM
        (fun dd p =>
          match splitEq1 p with
          | some (k2, v2) => Except.ok (dictSet dd ⟨k2⟩ ⟨v2⟩)
          | none => Except.error ()) acc : Except Unit _) = .ok (acc ++ d) := by
  intro d
  induction d with
  | nil =>
    intro acc _ _ _
    simp
    rfl
  | cons kv d' ih =>
    intro acc hk hnd hdisj
    rw [List.map_cons, List.foldlM_cons]
    rw [splitEq1_append kv.1.data (fun c hc =>
      (identChar_not_delim c
        (List.all_eq_true.mp (hk kv (by simp)).2 c hc)).2.2.1) kv.2.data]
    dsimp only
    rw [show (⟨kv.1.data⟩ : String) = kv.1 from strMk_data _]
    rw [show (⟨kv.2.data⟩ : String) = kv.2 from strMk_data _]
    rw [dictSet_notmem acc kv.1 kv.2 (fun x hx => hdisj kv (by simp) x hx)]
    rw [noDupKeys, Bool.and_eq_true] at hnd
    have := ih (acc ++ [(kv.1, kv.2)]) (fun x hx => hk x (by simp [hx])) hnd.2
      (fun x hx y hy => by
        rcases List.mem_append.mp hy with hy1 | hy2
        · exact hdisj x (by simp [hx]) y hy1
        · simp at hy2
          rw [hy2]
          intro hcon
          have hany := hnd.1
          simp at hany
          exact hany x.1 x.2 hx hcon.symm)
    show (List.foldlM
        (fun dd p =>
          match splitEq1 p with
          | some (k2, v2) => Except.ok (dictSet dd ⟨k2⟩ ⟨v2⟩)
          | none => Except.error ())
        (acc ++ [kv]) (List.map (fun kv => kv.1.data ++ '=' :: kv.2.data) d') :
      Except Unit _) = Except.ok (acc ++ kv :: d')
    rw [this]
    simp

theorem buildParams_inner (d : List (String × String))
    (hd : ∀ kv ∈ d, kv.1 ≠ "" ∧ kv.1.data.all identChar = true ∧
      kv.2.data.all cleanValueChar = true)
    (hnd : noDupKeys d = true) :
    buildParams (innerParams d) = .ok d := by
  rw [buildParams]
  rw [pieces_inner d hd]
  rw [buildParams_fold d [] (fun kv hkv => ⟨(hd kv hkv).1, (hd kv hkv).2.1⟩)
    hnd (fun _ _ _ hy => absurd hy (List.not_mem_nil _))]
  rfl


/-- The text segment a nonempty pending gap turns into. -/
def gapSegs (gap : List Char) : List MessageSegment :=
  if gap = [] then [] else [⟨"text", some [("text", ⟨gap⟩)]⟩]

/-- The segment list the parse of a rendered well-formed message
produces: text runs collapse into one segment per gap, tokens come
through unchanged. -/
def normScan (gap : List Char) : List MessageSegment → List MessageSegment
  | [] => gapSegs gap
  | s :: rest =>
    if s.type = "text" then normScan (gap ++ payloadChars s) rest
    else gapSegs gap ++ s :: normScan [] rest

theorem splitStep_bind (y : List MessageSegment)
    (l : List (String × List Char)) :
    ((Except.ok y >>= fun x => List.foldlM splitStep x l) :
      Except Unit (List MessageSegment)) = List.foldlM splitStep y l := rfl

theorem process_expected :
    ∀ (msg : List MessageSegment) (gap : List Char)
      (acc : List MessageSegment), wfMsg msg = true →
      ((expectedScan gap msg).foldlM splitStep acc :
        Except Unit (List MessageSegment)) =
      .ok (acc ++ normScan gap msg) := by
  intro msg
  induction msg with
  | nil =>
    intro gap acc _
    rw [expectedScan, List.foldlM_cons]
    rw [show splitStep acc ("text", gap) =
      (if gap ≠ [] then
        .ok (acc ++ [⟨"text", some [("text", ⟨gap⟩)]⟩]) else .ok acc) from by
      rw [splitStep, if_pos rfl]]
    by_cases hg : gap = []
    · rw [if_neg (by simp [hg])]
      rw [normScan, gapSegs, if_pos hg]
      rw [splitStep_bind]
      simp
      rfl
    · rw [if_pos (by simpa using hg)]
      rw [normScan, gapSegs, if_neg hg]
      rw [splitStep_bind]
      simp
      rfl
  | cons s rest ih =>
    intro gap acc hw
    have hws := List.all_eq_true.mp hw s (by simp)
    have hwr := wfMsg_rest hw
    by_cases h : s.type = "text"
    · rw [expectedScan, if_pos h, normScan, if_pos h]
      exact ih _ acc hwr
    · obtain ⟨hty, htyid, d, hsd, hkv, hnd⟩ := wfSeg_token_shape hws h
      rw [expectedScan, if_neg h, List.foldlM_cons]
      rw [show splitStep acc ("text", gap) =
        (if gap ≠ [] then
          .ok (acc ++ [⟨"text", some [("text", ⟨gap⟩)]⟩]) else .ok acc) from by
        rw [splitStep, if_pos rfl]]
      rw [normScan, if_neg h, hsd]
      rw [show (some d).getD [] = d from rfl]
      have hstep2 : ∀ a, splitStep a (s.type, innerParams d) =
          .ok (a ++ [s]) := by
        intro a
        rw [splitStep, if_neg h]
        rw [show ((s.type, innerParams d)).2 = innerParams d from rfl]
        rw [buildParams_inner d hkv hnd]
        show Except.ok (a ++ [(⟨s.type, some d⟩ : MessageSegment)]) = _
        rw [show (⟨s.type, some d⟩ : MessageSegment) = s from by rw [← hsd]]
      by_cases hg : gap = []
      · rw [if_neg (by simp [hg]), gapSegs, if_pos hg]
        rw [splitStep_bind, List.foldlM_cons, hstep2 acc, splitStep_bind]
        rw [ih [] _ hwr]
        simp
      · rw [if_pos (by simpa using hg), gapSegs, if_neg hg]
        rw [splitStep_bind, List.foldlM_cons, hstep2 _, splitStep_bind]
        rw [ih [] _ hwr]
        simp


theorem noAdjTexts_mid {l1 : List MessageSegment} {s : MessageSegment}
    {l2 : List MessageSegment}
    (h : noAdjTexts (l1 ++ s :: l2) = true) :
    ∀ last, l1.getLast? = some last →
      ¬(last.type = "text" ∧ s.type = "text") := by
  intro last hl
  have hpre : noAdjTexts (l1 ++ [s]) = true := by
    refine noAdjTexts_prefix _ l2 ?_
    rw [show (l1 ++ [s]) ++ l2 = l1 ++ s :: l2 from by simp]
    exact h
  exact ((noAdjTexts_concat_iff _ _).mp hpre).2 last hl

theorem extend_fix :
    ∀ (segs acc : List MessageSegment), noAdjTexts (acc ++ segs) = true →
      msgExtend acc segs = .ok (acc ++ segs) := by
  intro segs
  induction segs with
  | nil =>
    intro acc _
    rw [msgExtend]
    simp
    rfl
  | cons s rest ih =>
    intro acc h
    rw [msgExtend, List.foldlM_cons]
    rw [msgAppend_push (noAdjTexts_mid h)]
    rw [show ((Except.ok (acc ++ [s]) >>= fun x =>
      List.foldlM msgAppend x rest) : Except Unit _) =
      List.foldlM msgAppend (acc ++ [s]) rest from rfl]
    rw [show (List.foldlM msgAppend (acc ++ [s]) rest : Except Unit _) =
      msgExtend (acc ++ [s]) rest from rfl]
    have hns : noAdjTexts ((acc ++ [s]) ++ rest) = true := by
      rw [show (acc ++ [s]) ++ rest = acc ++ s :: rest from by simp]
      exact h
    rw [ih (acc ++ [s]) hns]
    simp

theorem noAdjTexts_cons_head (a : MessageSegment) (l : List MessageSegment)
    (hl : noAdjTexts l = true)
    (hcond : ∀ b, l.head? = some b → ¬(a.type = "text" ∧ b.type = "text")) :
    noAdjTexts (a :: l) = true := by
  cases l with
  | nil => rfl
  | cons b t =>
    rw [show noAdjTexts (a :: b :: t) =
      (!(a.type == "text" && b.type == "text") && noAdjTexts (b :: t))
      from rfl]
    rw [hl]
    have := hcond b rfl
    have hab : (a.type == "text" && b.type == "text") = false := by
      by_cases ha : a.type = "text"
      · by_cases hb2 : b.type = "text"
        · exact absurd ⟨ha, hb2⟩ this
        · simp [hb2]
      · simp [ha]
    rw [hab]
    rfl

theorem normScan_noAdj :
    ∀ (msg : List MessageSegment) (gap : List Char), wfMsg msg = true →
      noAdjTexts (normScan gap msg) = true := by
  intro msg
  induction msg with
  | nil =>
    intro gap _
    rw [normScan, gapSegs]
    by_cases hg : gap = []
    · rw [if_pos hg]; rfl
    · rw [if_neg hg]; rfl
  | cons s rest ih =>
    intro gap hw
    have hwr := wfMsg_rest hw
    by_cases h : s.type = "text"
    · rw [normScan, if_pos h]
      exact ih _ hwr
    · rw [normScan, if_neg h, gapSegs]
      by_cases hg : gap = []
      · rw [if_pos hg]
        rw [List.nil_append]
        refine noAdjTexts_cons_head s _ (ih [] hwr) ?_
        intro b _ hc
        exact h hc.1
      · rw [if_neg hg]
        rw [List.singleton_append]
        refine noAdjTexts_cons_head _ _ ?_ ?_
        · refine noAdjTexts_cons_head s _ (ih [] hwr) ?_
          intro b _ hc
          exact h hc.1
        · intro b hb hc
          simp at hb
          rw [← hb] at hc
          exact h hc.2

theorem reduceGo_merge_step (done : List MessageSegment) (gap : List Char)
    (v : String) (rest2 : List MessageSegment) :
    reduceGo (done ++ [⟨"text", some [("text", ⟨gap⟩)]⟩])
      ((⟨"text", some [("text", v)]⟩ : MessageSegment) :: rest2) =
    reduceGo (done ++ [⟨"text", some [("text", ⟨gap ++ v.data⟩)]⟩]) rest2 := by
  rw [reduceGo, List.getLast?_concat]
  rw [show (match (some (⟨"text", some [("text", ⟨gap⟩)]⟩ : MessageSegment))
      with
    | some last =>
      if last.type = "text" ∧
          (⟨"text", some [("text", v)]⟩ : MessageSegment).type = "text" then
        match last.data with
        | some ld =>
          match dictGet ld "text" with
          | some lt =>
            match (⟨"text", some [("text", v)]⟩ : MessageSegment).data with
            | some sd =>
              match dictGet sd "text" with
              | some st =>
                reduceGo
                  ((done ++ [(⟨"text", some [("text", ⟨gap⟩)]⟩ :
                      MessageSegment)]).dropLast ++
                    [⟨last.type, some (dictSet ld "text" (lt ++ st))⟩]) rest2
              | none => Except.error ()
            | none => Except.error ()
          | none => Except.error ()
        | none => Except.error ()
      else
        reduceGo (done ++ [(⟨"text", some [("text", ⟨gap⟩)]⟩ :
          MessageSegment)] ++ [(⟨"text", some [("text", v)]⟩ :
            MessageSegment)]) rest2
    | none =>
      reduceGo (done ++ [(⟨"text", some [("text", ⟨gap⟩)]⟩ :
        MessageSegment)] ++ [(⟨"text", some [("text", v)]⟩ :
          MessageSegment)]) rest2) =
    reduceGo
      ((done ++ [(⟨"text", some [("text", ⟨gap⟩)]⟩ :
          MessageSegment)]).dropLast ++
        [⟨"text", some [("text", (⟨gap ++ v.data⟩ : String))]⟩]) rest2
    from rfl]
  rw [List.dropLast_concat]

theorem reduceGo_skip_step (done : List MessageSegment) (s : MessageSegment)
    (rest2 : List MessageSegment)
    (h : ∀ last, done.getLast? = some last →
      ¬(last.type = "text" ∧ s.type = "text")) :
    reduceGo done (s :: rest2) = reduceGo (done ++ [s]) rest2 := by
  rw [reduceGo]
  cases hl : done.getLast? with
  | some last =>
    dsimp only
    rw [if_neg (h last hl)]
  | none => dsimp only

theorem reduceGo_norm :
    ∀ msg : List MessageSegment, wfMsg msg = true →
      (∀ done gap, gap ≠ [] →
        reduceGo (done ++ [⟨"text", some [("text", ⟨gap⟩)]⟩]) msg =
          .ok (done ++ normScan gap msg)) ∧
      (∀ done, (∀ last, done.getLast? = some last → ¬ last.type = "text") →
        reduceGo done msg = .ok (done ++ normScan [] msg)) := by
  intro msg
  induction msg with
  | nil =>
    intro _
    constructor
    · intro done gap hgap
      rw [reduceGo, normScan, gapSegs, if_neg hgap]
    · intro done _
      rw [reduceGo, normScan, gapSegs, if_pos rfl]
      simp
  | cons s rest ih =>
    intro hw
    have hws := List.all_eq_true.mp hw s (by simp)
    have hwr := wfMsg_rest hw
    obtain ⟨hih1, hih2⟩ := ih hwr
    constructor
    · intro done gap hgap
      by_cases h : s.type = "text"
      · obtain ⟨v, hsd, hv, hclean⟩ := wfSeg_text_shape hws h
        obtain ⟨ty, dt⟩ := s
        simp only at h hsd
        subst h
        subst hsd
        rw [reduceGo_merge_step done gap v rest]
        rw [hih1 done (gap ++ v.data) (by simp [hgap])]
        rw [normScan, if_pos rfl]
        rw [show payloadChars ⟨"text", some [("text", v)]⟩ = v.data from rfl]
      · rw [reduceGo_skip_step _ s rest (by
          rw [List.getLast?_concat]
          intro last hl hc
          cases hl
          exact h hc.2)]
        rw [show (done ++ [⟨"text", some [("text", ⟨gap⟩)]⟩]) ++ [s] =
          (done ++ [⟨"text", some [("text", ⟨gap⟩)]⟩, s]) from by simp]
        have := hih2 (done ++ [⟨"text", some [("text", ⟨gap⟩)]⟩, s]) (by
          intro last hl
          rw [show done ++ [⟨"text", some [("text", ⟨gap⟩)]⟩, s] =
            (done ++ [⟨"text", some [("text", ⟨gap⟩)]⟩]) ++ [s] from by simp,
            List.getLast?_concat] at hl
          cases hl
          exact h)
        rw [this]
        rw [normScan, if_neg h, gapSegs, if_neg hgap]
        simp
    · intro done hdone
      by_cases h : s.type = "text"
      · obtain ⟨v, hsd, hv, hclean⟩ := wfSeg_text_shape hws h
        obtain ⟨ty, dt⟩ := s
        simp only at h hsd
        subst h
        subst hsd
        rw [reduceGo_skip_step done _ rest (by
          intro last hl hc
          exact hdone last hl hc.1)]
        rw [show (⟨"text", some [("text", v)]⟩ : MessageSegment) =
          ⟨"text", some [("text", ⟨v.data⟩)]⟩ from rfl]
        rw [hih1 done v.data (strNeEmpty_data hv)]
        rw [normScan, if_pos rfl]
        rw [show payloadChars ⟨"text", some [("text", ⟨v.data⟩)]⟩ = v.data
          from rfl]
        rw [List.nil_append]
      · rw [reduceGo_skip_step done s rest (by
          intro last hl hc
          exact hdone last hl hc.1)]
        have := hih2 (done ++ [s]) (by
          rw [List.getLast?_concat]
          intro last hl
          cases hl
          exact h)
        rw [this]
        rw [normScan, if_neg h, gapSegs, if_pos rfl]
        simp

/-! ### C4: round trip through the wire format -/

theorem escapeL_nil (b : Bool) : escapeL b [] = [] := by
  rw [← escapeLF_eq]
  cases b <;> rfl

/-- C4 counterexample: the message holding one text segment with empty
payload contains no disallowed raw control sequences, yet composing it
gives the empty string, which parses back to the empty message, while
`reduce` keeps the empty text segment: the round trip fails. -/
theorem C4_counterexample_empty_text :
    ((messageStr [⟨"text", some [("text", "")]⟩] >>=
      fun s => parseMessage s) : Except Unit (List MessageSegment)) =
      .ok [] ∧
    msgReduce [⟨"text", some [("text", "")]⟩] =
      .ok [⟨"text", some [("text", "")]⟩] ∧
    (Except.ok ([] : List MessageSegment) :
      Except Unit (List MessageSegment)) ≠
      .ok [⟨"text", some [("text", "")]⟩] := by
  refine ⟨?_, rfl, by intro h; injection h with h2; cases h2⟩
  rw [show messageStr [⟨"text", some [("text", "")]⟩] =
    .ok ⟨escapeL false []⟩ from rfl]
  rw [escapeL_nil]
  show parseMessage "" = .ok []
  rw [← parseMessageF_eq]
  rfl

/-- C4 (amended): for every well-formed message — every text segment has
a nonempty payload of characters needing no escaping, every non-text
segment has a nonempty identifier type and a duplicate-free params dict
of nonempty identifier keys with values free of `,`, `]` and escapable
characters — parsing the composed string agrees with `reduce()`. -/
theorem C4_round_trip_wf (msg : List MessageSegment)
    (hw : wfMsg msg = true) :
    ((messageStr msg >>= fun s => parseMessage s) :
      Except Unit (List MessageSegment)) = msgReduce msg := by
  rw [messageStr_wf msg hw]
  show parseMessage ⟨(msg.map renderChars).flatten⟩ = msgReduce msg
  rw [parseMessage]
  rw [show (⟨(msg.map renderChars).flatten⟩ : String).data =
    (msg.map renderChars).flatten from rfl]
  rw [splitIterSegs, iterFNE]
  rw [scan_main msg [] hw]
  rw [process_expected msg [] [] hw]
  rw [List.nil_append]
  show msgExtend [] (normScan [] msg) = msgReduce msg
  rw [extend_fix (normScan [] msg) [] (by
    rw [List.nil_append]
    exact normScan_noAdj msg [] hw)]
  rw [msgReduce]
  rw [(reduceGo_norm msg hw).2 [] (by intro last hl; cases hl)]

/-- C4 witness: a concrete well-formed two-segment message round-trips. -/
theorem C4_round_trip_wf_witness :
    wfMsg [⟨"text", some [("text", "hi")]⟩, ⟨"at", some [("qq", "123")]⟩]
      = true ∧
    ((messageStr [⟨"text", some [("text", "hi")]⟩,
        ⟨"at", some [("qq", "123")]⟩] >>= fun s => parseMessage s) :
      Except Unit (List MessageSegment)) =
      msgReduce [⟨"text", some [("text", "hi")]⟩,
        ⟨"at", some [("qq", "123")]⟩] :=
  ⟨by decide, C4_round_trip_wf
    [⟨"text", some [("text", "hi")]⟩, ⟨"at", some [("qq", "123")]⟩]
    (by decide)⟩

/-! ### C1: parameter values stored verbatim -/

theorem piece_no_comma_vOk {k v : String} (hkid : k.data.all identChar = true)
    (hv : v.data.all vOkChar = true) :
    ∀ c ∈ k.data ++ '=' :: v.data, c ≠ ',' := by
  intro c hc
  rcases List.mem_append.mp hc with hc1 | hc2
  · exact (identChar_not_delim c (List.all_eq_true.mp hkid c hc1)).2.1
  · rcases List.mem_cons.mp hc2 with rfl | hc3
    · decide
    · have := List.all_eq_true.mp hv c hc3
      simp [vOkChar] at this
      exact this.1

theorem buildParams_single (k v : String) (hk : k ≠ "")
    (hkid : k.data.all identChar = true) (hv : v.data.all vOkChar = true) :
    buildParams (innerParams [(k, v)]) = .ok [(k, v)] := by
  rw [buildParams]
  rw [show innerParams [(k, v)] = k.data ++ '=' :: v.data from by
    rw [innerParams, paramsConcat, List.append_nil]]
  rw [splitOnComma_nocomma _ (piece_no_comma_vOk hkid hv)]
  rw [List.map_cons, List.map_nil, dropWhile_pyWs_piece hk hkid]
  rw [List.filter_cons]
  rw [if_pos (by
    simp only [decide_eq_true_eq]
    intro hcon
    rcases List.append_eq_nil.mp hcon with ⟨_, h2⟩
    cases h2)]
  rw [List.filter_nil]
  rw [show [k.data ++ '=' :: v.data] =
    [(k, v)].map (fun kv => kv.1.data ++ '=' :: kv.2.data) from by simp]
  rw [buildParams_fold [(k, v)] []
    (by intro kv hkv; simp at hkv; subst hkv; exact ⟨hk, hkid⟩)
    rfl
    (fun _ _ _ hy => absurd hy (List.not_mem_nil _))]
  rfl

theorem cq_concat_data (t k v : String) :
    ("[CQ:" ++ t ++ "," ++ k ++ "=" ++ v ++ "]").data =
      tokenChars t [(k, v)] ++ [] := by
  simp only [String.data_append]
  rw [tokenChars, paramsConcat, paramsConcat]
  simp

/-- C1 (amended): a matched token stores its parameter value verbatim,
with no `unescape` applied: parsing the single token
`[CQ:` ++ t ++ `,` ++ k ++ `=` ++ v ++ `]`, for an identifier type `t`
other than `text`, a nonempty identifier key `k` and a value `v` free of
`,` and `]`, yields one segment of type `t` whose params dict holds the
uninterpreted `v` under `k`. -/
theorem C1_value_stored_verbatim (t k v : String)
    (htne : t ≠ "") (htid : t.data.all identChar = true) (htt : t ≠ "text")
    (hk : k ≠ "") (hkid : k.data.all identChar = true)
    (hv : v.data.all vOkChar = true) :
    parseMessage ("[CQ:" ++ t ++ "," ++ k ++ "=" ++ v ++ "]") =
      .ok [⟨t, some [(k, v)]⟩] := by
  rw [parseMessage, cq_concat_data]
  rw [splitIterSegs, iterFNE]
  rw [scanAux_some [] (matchAt_token t [(k, v)] [] htid htne
    (by intro kv hkv; simp at hkv; subst hkv; exact ⟨hk, hkid, hv⟩))]
  rw [paramsConcat_dropComma [(k, v)]
    (by intro kv hkv; simp at hkv; subst hkv; exact ⟨hk, hkid⟩)]
  rw [scanAux_nil]
  rw [List.foldlM_cons]
  rw [show splitStep [] ("text", ([] : List Char)) = .ok [] from rfl]
  rw [splitStep_bind]
  rw [List.foldlM_cons]
  rw [show splitStep [] (t, innerParams [(k, v)]) =
    (buildParams (innerParams [(k, v)])).map
      (fun d => [] ++ [(⟨t, some d⟩ : MessageSegment)]) from by
    rw [splitStep, if_neg htt]]
  rw [buildParams_single k v hk hkid hv]
  rw [show ((Except.ok [(k, v)] : Except Unit _).map
    (fun d => [] ++ [(⟨t, some d⟩ : MessageSegment)])) =
    .ok [(⟨t, some [(k, v)]⟩ : MessageSegment)] from rfl]
  rw [splitStep_bind]
  rw [List.foldlM_cons]
  rw [show splitStep [(⟨t, some [(k, v)]⟩ : MessageSegment)]
    ("text", ([] : List Char)) =
    .ok [(⟨t, some [(k, v)]⟩ : MessageSegment)] from rfl]
  rw [splitStep_bind]
  show msgExtend [] [(⟨t, some [(k, v)]⟩ : MessageSegment)] =
    .ok [(⟨t, some [(k, v)]⟩ : MessageSegment)]
  rw [extend_fix [(⟨t, some [(k, v)]⟩ : MessageSegment)] [] (by rfl)]
  rw [List.nil_append]

/-- C1 witness: parsing `[CQ:share,title=a&#44;b]` stores the raw value
`a&#44;b` under `title`, not the unescaped `a,b`. -/
theorem C1_value_stored_verbatim_witness :
    ("share" : String).data.all identChar = true ∧
    ("title" : String).data.all identChar = true ∧
    ("a&#44;b" : String).data.all vOkChar = true ∧
    parseMessage ("[CQ:" ++ "share" ++ "," ++ "title" ++ "=" ++ "a&#44;b"
      ++ "]") = .ok [⟨"share", some [("title", "a&#44;b")]⟩] :=
  ⟨by decide, by decide, by decide,
    C1_value_stored_verbatim "share" "title" "a&#44;b"
      (by decide) (by decide) (by decide) (by decide) (by decide)
      (by decide)⟩

/-! ### C3: totality of parsing under the every-piece-has-= condition -/

/-- A captured params text whose surviving pieces each contain a `=`,
so the dict comprehension of `_split_iter` unpacks every piece. -/
def extraOk (e : List Char) : Bool :=
  (((splitOnComma e).map (fun p => p.dropWhile pyWs)).filter
    (fun p => p ≠ [])).all (fun p => p.any (fun c => c == '='))

/-- Every matched token of the scan of `s` has a params text whose
surviving pieces each contain a `=`. -/
def scanOk (s : String) : Bool :=
  (iterFNE s.data).all (fun fe => fe.1 == "text" || extraOk fe.2)

/-- A segment whose text payload is readable when its type is `text`. -/
def textOk (s : MessageSegment) : Bool :=
  if s.type = "text" then
    match s.data with
    | some d => (dictGet d "text").isSome
    | none => false
  else true

theorem textOk_text_shape {s : MessageSegment} (h : textOk s = true)
    (ht : s.type = "text") :
    ∃ d w, s.data = some d ∧ dictGet d "text" = some w := by
  rw [textOk, if_pos ht] at h
  rcases hd : s.data with _ | d
  · rw [hd] at h
    simp at h
  · rw [hd] at h
    simp at h
    obtain ⟨w, hw⟩ := Option.isSome_iff_exists.mp h
    exact ⟨d, w, rfl, hw⟩

theorem splitEq1_total :
    ∀ p : List Char, p.any (fun c => c == '=') = true →
      ∃ kv, splitEq1 p = some kv := by
  intro p
  induction p with
  | nil => intro h; simp at h
  | cons c rest ih =>
    intro h
    by_cases hc : c = '='
    · exact ⟨([], rest), by rw [splitEq1, if_pos hc]⟩
    · have h2 : rest.any (fun c => c == '=') = true := by
        simp only [List.any_cons, Bool.or_eq_true] at h
        rcases h with h1 | h1
        · exact absurd (eq_of_beq h1) hc
        · exact h1
      obtain ⟨kv, hkv⟩ := ih h2
      exact ⟨(c :: kv.1, kv.2), by rw [splitEq1, if_neg hc, hkv]; rfl⟩

theorem buildParams_total_fold :
    ∀ (ps : List (List Char)) (acc : List (String × String)),
      (∀ p ∈ ps, p.any (fun c => c == '=') = true) →
      ∃ d, (ps.foldlM (fun d p =>
        match splitEq1 p with
        | some (k, v) => Except.ok (dictSet d ⟨k⟩ ⟨v⟩)
        | none => Except.error ()) acc :
          Except Unit (List (String × String))) = .ok d := by
  intro ps
  induction ps with
  | nil => intro acc _; exact ⟨acc, rfl⟩
  | cons p ps ih =>
    intro acc h
    obtain ⟨kv, hkv⟩ := splitEq1_total p (h p (by simp))
    obtain ⟨k1, v1⟩ := kv
    obtain ⟨d, hd⟩ := ih (dictSet acc ⟨k1⟩ ⟨v1⟩)
      (fun x hx => h x (by simp [hx]))
    refine ⟨d, ?_⟩
    rw [List.foldlM_cons, hkv]
    exact hd

theorem buildParams_total (e : List Char) (he : extraOk e = true) :
    ∃ d, buildParams e = .ok d := by
  obtain ⟨d, hd⟩ := buildParams_total_fold
    (((splitOnComma e).map (fun p => p.dropWhile pyWs)).filter
      (fun p => p ≠ [])) []
    (fun p hp => List.all_eq_true.mp he p hp)
  exact ⟨d, hd⟩

theorem splitStep_total (acc : List MessageSegment) (fe : String × List Char)
    (hacc : acc.all textOk = true)
    (hfe : fe.1 = "text" ∨ extraOk fe.2 = true) :
    ∃ acc2, splitStep acc fe = .ok acc2 ∧ acc2.all textOk = true := by
  by_cases ht : fe.1 = "text"
  · rw [splitStep, if_pos ht]
    by_cases he : fe.2 ≠ []
    · rw [if_pos he]
      refine ⟨_, rfl, ?_⟩
      rw [List.all_append, hacc]
      rfl
    · rw [if_neg he]
      exact ⟨acc, rfl, hacc⟩
  · rw [splitStep, if_neg ht]
    rcases hfe with hfe1 | hfe2
    · exact absurd hfe1 ht
    · obtain ⟨d, hd⟩ := buildParams_total fe.2 hfe2
      rw [hd]
      refine ⟨_, rfl, ?_⟩
      rw [List.all_append, hacc]
      simp only [Bool.true_and, List.all_cons, List.all_nil, Bool.and_true]
      rw [textOk, if_neg ht]

theorem splitFold_total :
    ∀ (l : List (String × List Char)) (acc : List MessageSegment),
      acc.all textOk = true →
      (∀ fe ∈ l, fe.1 = "text" ∨ extraOk fe.2 = true) →
      ∃ segs, (l.foldlM splitStep acc : Except Unit (List MessageSegment)) =
        .ok segs ∧ segs.all textOk = true := by
  intro l
  induction l with
  | nil => intro acc ha _; exact ⟨acc, rfl, ha⟩
  | cons fe l ih =>
    intro acc ha hl
    obtain ⟨acc2, hacc2, hall2⟩ := splitStep_total acc fe ha (hl fe (by simp))
    obtain ⟨segs, hsegs, hsall⟩ := ih acc2 hall2
      (fun x hx => hl x (by simp [hx]))
    refine ⟨segs, ?_, hsall⟩
    rw [List.foldlM_cons, hacc2, splitStep_bind, hsegs]

theorem dictGet_dictSet_self :
    ∀ (d : List (String × String)) (k v : String),
      dictGet (dictSet d k v) k = some v := by
  intro d
  induction d with
  | nil =>
    intro k v
    rw [dictSet, dictGet]
    simp [List.find?_cons]
  | cons kv rest ih =>
    intro k v
    obtain ⟨k0, v0⟩ := kv
    rw [dictSet]
    by_cases hc : (k0 == k) = true
    · rw [if_pos hc]
      rw [dictGet]
      simp [List.find?_cons, hc]
    · rw [if_neg hc]
      rw [dictGet]
      rw [List.find?_cons_of_neg _ (by simpa using hc)]
      exact ih k v

theorem msgAppend_total (msg : List MessageSegment) (s : MessageSegment)
    (hm : msg.all textOk = true) (hs : textOk s = true) :
    ∃ msg2, msgAppend msg s = .ok msg2 ∧ msg2.all textOk = true := by
  rw [msgAppend]
  split
  · rename_i last hlast
    split
    · rename_i hcond
      obtain ⟨ld, lt, hld, hlt⟩ := textOk_text_shape
        (List.all_eq_true.mp hm last (List.mem_of_mem_getLast? hlast)) hcond.1
      obtain ⟨sd, st, hsd, hst⟩ := textOk_text_shape hs hcond.2
      split
      · rename_i ld2 hld2
        split
        · rename_i lt2 hlt2
          split
          · rename_i sd2 hsd2
            split
            · rename_i st2 hst2
              refine ⟨_, rfl, ?_⟩
              rw [List.all_append]
              refine (Bool.and_eq_true _ _).mpr ⟨?_, ?_⟩
              · exact List.all_eq_true.mpr (fun x hx =>
                  List.all_eq_true.mp hm x (List.dropLast_subset _ hx))
              · simp only [List.all_cons, List.all_nil, Bool.and_true]
                rw [textOk, if_pos hcond.1]
                show (dictGet (dictSet ld2 "text" (lt2 ++ st2))
                  "text").isSome = true
                rw [dictGet_dictSet_self]
                rfl
            · rename_i hst2
              rw [hsd] at hsd2
              injection hsd2 with he
              subst he
              rw [hst] at hst2
              cases hst2
          · rename_i hsd2
            rw [hsd] at hsd2
            cases hsd2
        · rename_i hlt2
          rw [hld] at hld2
          injection hld2 with he
          subst he
          rw [hlt] at hlt2
          cases hlt2
      · rename_i hld2
        rw [hld] at hld2
        cases hld2
    · rename_i hcond
      refine ⟨msg ++ [s], rfl, ?_⟩
      rw [List.all_append, hm]
      simp only [Bool.true_and, List.all_cons, List.all_nil, Bool.and_true]
      exact hs
  · rename_i hnone
    refine ⟨msg ++ [s], rfl, ?_⟩
    rw [List.all_append, hm]
    simp only [Bool.true_and, List.all_cons, List.all_nil, Bool.and_true]
    exact hs

theorem msgExtend_total :
    ∀ (segs msg : List MessageSegment), msg.all textOk = true →
      segs.all textOk = true →
      ∃ out, msgExtend msg segs = .ok out := by
  intro segs
  induction segs with
  | nil => intro msg _ _; exact ⟨msg, rfl⟩
  | cons s rest ih =>
    intro msg hm hs
    rw [List.all_cons, Bool.and_eq_true] at hs
    obtain ⟨m2, hm2, hall2⟩ := msgAppend_total msg s hm hs.1
    obtain ⟨out, hout⟩ := ih m2 hall2 hs.2
    refine ⟨out, ?_⟩
    rw [msgExtend, List.foldlM_cons, hm2]
    rw [msgExtend] at hout
    exact hout

/-- C3 (amended): parsing raises no error on every input string whose
matched tokens all have params texts in which every surviving piece
contains a `=` (the code splits each piece on its first `=` and raises
when there is none); and the malformed token `[CQ:]` is not matched by
the scanner, so it parses as a single plain-text segment holding the
literal substring. -/
theorem C3_total_with_eq (s : String) (hs : scanOk s = true) :
    (∃ segs, parseMessage s = .ok segs) ∧
    parseMessage "[CQ:]" = .ok [⟨"text", some [("text", "[CQ:]")]⟩] := by
  refine ⟨?_, by rw [← parseMessageF_eq]; rfl⟩
  have hs2 : (iterFNE s.data).all
    (fun fe => fe.1 == "text" || extraOk fe.2) = true := hs
  obtain ⟨segs, hsegs, hall⟩ := splitFold_total (iterFNE s.data) [] rfl
    (by
      intro fe hfe
      have := List.all_eq_true.mp hs2 fe hfe
      simp only [Bool.or_eq_true, beq_iff_eq] at this
      exact this)
  obtain ⟨out, hout⟩ := msgExtend_total segs [] rfl hall
  refine ⟨out, ?_⟩
  rw [parseMessage, splitIterSegs, hsegs]
  exact hout

/-- C3 witness: a concrete string mixing text, a matched token with a
`=` piece and the unmatched `[CQ:]` parses without error. -/
theorem C3_total_with_eq_witness :
    scanOk "hi [CQ:face,id=14] yo[CQ:]" = true ∧
    ((∃ segs, parseMessage "hi [CQ:face,id=14] yo[CQ:]" = .ok segs) ∧
      parseMessage "[CQ:]" = .ok [⟨"text", some [("text", "[CQ:]")]⟩]) :=
  ⟨by rw [scanOk, iterFNE, ← scanAuxF_eq 30 _ _ (by decide)]; decide,
   C3_total_with_eq "hi [CQ:face,id=14] yo[CQ:]"
     (by rw [scanOk, iterFNE, ← scanAuxF_eq 30 _ _ (by decide)]; decide)⟩

end Aiocq
